import Mathlib

/-!
Verification development for the Gmail mail-merge batch dispatcher
(`src/app.py`).  The pure core of the program — recipient extraction,
markup conversion, pending-set computation, the batch send loop with its
cap, pacing and per-row outcome tracking, the message-id fetch retry
loop, and the resume-marker startup check — is embedded shallowly below.
Remote Gmail calls, the random number generator and the filesystem are
modelled as explicit oracles; every other definition follows the Python
source line by line.
-/

namespace MailMerge

/-! ## Recipient extractor (src/app.py lines 81-87)

`EMAIL_REGEX = re.compile(r"[\w\.-]+@[\w\.-]+\.\w+")` and
`extract_email` returning `match.group(0)` of `EMAIL_REGEX.search`,
or `None`.  The matcher below reproduces Python's leftmost search with
greedy `+` and backtracking.  `\w` is modelled over ASCII. -/

/-- ASCII model of the regex class `\w`: letters, digits and underscore. -/
def isWordChar (c : Char) : Bool := c.isAlphanum || c == '_'

/-- The regex class `[\w\.-]` used for the local part and the domain. -/
def isAtomChar (c : Char) : Bool := isWordChar c || c == '.' || c == '-'

/-- Greedy `C+` (for a one-character class) followed by a continuation `k`,
with backtracking: consumption lengths are tried from `n` (the maximal run
length) down to 1, exactly as a backtracking regex engine does. -/
def tryBacktrack (l : List Char) (k : List Char → Option (List Char)) : Nat → Option (List Char)
  | 0 => none
  | n + 1 =>
    match k (l.drop (n + 1)) with
    | some res => some (l.take (n + 1) ++ res)
    | none => tryBacktrack l k n

/-- Match the tail `\.\w+` of `EMAIL_REGEX` at the head of `l`.  The final
`\w+` is greedy and ends the pattern, so it simply takes the maximal
nonempty run of word characters. -/
def matchTld (l : List Char) : Option (List Char) :=
  match l with
  | [] => none
  | c :: l4 =>
    if c = '.' then
      if l4.takeWhile isWordChar = [] then none
      else some ('.' :: l4.takeWhile isWordChar)
    else none

/-- Match `[\w\.-]+\.\w+` (the part after `@`) at the head of `l`. -/
def matchDomain (l : List Char) : Option (List Char) :=
  tryBacktrack l matchTld (l.takeWhile isAtomChar).length

/-- Match `@[\w\.-]+\.\w+` at the head of `l`. -/
def matchAfterAt (l : List Char) : Option (List Char) :=
  match l with
  | [] => none
  | c :: l2 => if c = '@' then (matchDomain l2).map (fun m => '@' :: m) else none

/-- Match the whole pattern `[\w\.-]+@[\w\.-]+\.\w+` at the head of `l`. -/
def matchAt (l : List Char) : Option (List Char) :=
  tryBacktrack l matchAfterAt (l.takeWhile isAtomChar).length

/-- `re.search`: try `matchAt` at every start position, leftmost first. -/
def searchEmail : List Char → Option (List Char)
  | [] => none
  | c :: rest =>
    match matchAt (c :: rest) with
    | some m => some m
    | none => searchEmail rest

/-- `extract_email` (src/app.py lines 83-87): `None` on falsy (empty) input,
otherwise the first regex match, or `None` when there is none. -/
def extract_email (value : String) : Option String :=
  if value = "" then none
  else (searchEmail value.toList).map (fun l => String.mk l)

/-- Specification-level predicate: `m` is exactly a word of the language of
`EMAIL_REGEX`, i.e. `A+ @ A+ . W+` with `A = [\w\.-]` and `W = \w`. -/
def MatchesEmail (m : List Char) : Prop :=
  ∃ a b w, m = a ++ '@' :: (b ++ '.' :: w) ∧ a ≠ [] ∧ b ≠ [] ∧ w ≠ [] ∧
    (∀ c ∈ a, isAtomChar c = true) ∧ (∀ c ∈ b, isAtomChar c = true) ∧
    (∀ c ∈ w, isWordChar c = true)

/-- Python `str.strip()` (default whitespace stripping, ASCII model),
as applied to the `Email` cell in `to_addr = extract_email(str(...).strip())`. -/
def pyStrip (s : String) : String :=
  String.mk (((s.toList.dropWhile Char.isWhitespace).reverse.dropWhile Char.isWhitespace).reverse)

/-- Python `x or y` on strings: `y` when `x` is falsy (empty), else `x`.
Used in `fetch_message_id_header(service, msg_id) or msg_id` (line 332). -/
def pyOr (a b : String) : String := if a = "" then b else a

/-! ## Markup conversion (src/app.py lines 89-103)

`convert_bold` applies, in order: `re.sub(r"\*\*(.*?)\*\*", r"<b>\1</b>", ·)`,
the link substitution, `.replace("\n", "<br>")`, `.replace("  ", "&nbsp;&nbsp;")`,
and wraps the result in a fixed HTML shell.  Lazy `(.*?)` is modelled by
try-to-close-first scanning; `.` does not match a newline. -/

/-- Lazy scan for the closing `**`: at each position first try to close,
otherwise consume one non-newline character into the captured group. -/
def findBoldClose : List Char → Option (List Char × List Char)
  | [] => none
  | c :: rest =>
    if c = '*' ∧ rest.head? = some '*' then some ([], rest.tail)
    else if c = '\n' then none
    else (findBoldClose rest).map (fun p => (c :: p.1, p.2))

/-- `re.sub(r"\*\*(.*?)\*\*", r"<b>\1</b>", text)`: leftmost matches,
continuing after each replacement; an unmatched `**` is left literal and
scanning advances one character. -/
def convertBoldMarks : List Char → List Char
  | [] => []
  | c :: rest =>
    if c = '*' ∧ rest.head? = some '*' then
      match hfb : findBoldClose rest.tail with
      | some p => "<b>".toList ++ p.1 ++ "</b>".toList ++ convertBoldMarks p.2
      | none => c :: convertBoldMarks rest
    else c :: convertBoldMarks rest
termination_by l => l.length
decreasing_by
  · have key : ∀ (u : List Char) (q : List Char × List Char),
        findBoldClose u = some q → q.2.length ≤ u.length := by
      intro u
      induction u with
      | nil => intro q h; simp [findBoldClose] at h
      | cons a t ih =>
        intro q h
        simp only [findBoldClose] at h
        by_cases hc : a = '*' ∧ t.head? = some '*'
        · rw [if_pos hc] at h
          cases h
          have ht : t.tail.length ≤ t.length := by cases t <;> simp
          simp only [List.length_cons]
          omega
        · rw [if_neg hc] at h
          by_cases hn : a = '\n'
          · rw [if_pos hn] at h
            exact absurd h (by simp)
          · rw [if_neg hn] at h
            cases hrec : findBoldClose t with
            | none => rw [hrec] at h; simp at h
            | some q2 =>
              rw [hrec] at h
              simp only [Option.map_some'] at h
              cases h
              have hlt := ih q2 hrec
              simp only [List.length_cons]
              omega
    have h1 := key _ p hfb
    have h2 : ∀ u : List Char, u.tail.length ≤ u.length := by
      intro u
      cases u <;> simp
    simp only [List.length_cons]
    exact Nat.lt_succ_of_le (h1.trans (h2 _))
  · simp
  · simp

/-- The regex class `[^\s)]` of the URL part of the link pattern. -/
def urlChar (c : Char) : Bool := !c.isWhitespace && c != ')'

/-- The literal `https://` scheme prefix accepted by `https?://`. -/
def schemeHttps : List Char := "https://".toList

/-- The literal `http://` scheme prefix accepted by `https?://`. -/
def schemeHttp : List Char := "http://".toList

/-- After the scheme: greedy `[^\s)]+` followed by the literal `)`. -/
def parseUrlTail (scheme : List Char) (l : List Char) : Option (List Char × List Char) :=
  if l.takeWhile urlChar = [] then none
  else
    match l.drop (l.takeWhile urlChar).length with
    | [] => none
    | c :: rest => if c = ')' then some (scheme ++ l.takeWhile urlChar, rest) else none

/-- Match `(https?://[^\s)]+)` followed by `)` at the head of `l`
(the part of the link pattern after `](`). -/
def parseUrl (l : List Char) : Option (List Char × List Char) :=
  if l.take schemeHttps.length = schemeHttps then
    parseUrlTail schemeHttps (l.drop schemeHttps.length)
  else if l.take schemeHttp.length = schemeHttp then
    parseUrlTail schemeHttp (l.drop schemeHttp.length)
  else none

/-- Lazy scan for `](url)` closing a link: at each position first try
`]` `(` followed by a valid http(s) URL and `)`, otherwise consume one
non-newline character into the label. -/
def findLinkClose : List Char → Option (List Char × List Char × List Char)
  | [] => none
  | c :: rest =>
    if c = ']' ∧ rest.head? = some '(' ∧ (parseUrl rest.tail).isSome = true then
      (parseUrl rest.tail).map (fun p => ([], p.1, p.2))
    else if c = '\n' then none
    else (findLinkClose rest).map (fun p => (c :: p.1, p.2.1, p.2.2))

/-- The replacement template
`<a href="\2" style="color:#1a73e8; text-decoration:underline;" target="_blank">\1</a>`. -/
def anchorOf (url lab : List Char) : List Char :=
  "<a href=\"".toList ++ url ++
    "\" style=\"color:#1a73e8; text-decoration:underline;\" target=\"_blank\">".toList ++
    lab ++ "</a>".toList

/-- `re.sub` with the link pattern `\[(.*?)\]\((https?://[^\s)]+)\)`. -/
def convertLinks : List Char → List Char
  | [] => []
  | c :: rest =>
    if c = '[' then
      match hfl : findLinkClose rest with
      | some p => anchorOf p.2.1 p.1 ++ convertLinks p.2.2
      | none => c :: convertLinks rest
    else c :: convertLinks rest
termination_by l => l.length
decreasing_by
  · have keyTail : ∀ (sc u : List Char) (q : List Char × List Char),
        parseUrlTail sc u = some q → q.2.length ≤ u.length := by
      intro sc u q h
      unfold parseUrlTail at h
      by_cases h2 : u.takeWhile urlChar = []
      · rw [if_pos h2] at h
        simp at h
      · rw [if_neg h2] at h
        split at h
        · simp at h
        · rename_i c2 rest2 heq
          split at h
          · cases h
            have hl := congrArg List.length heq
            simp only [List.length_drop, List.length_cons] at hl
            show rest2.length ≤ u.length
            omega
          · simp at h
    have keyUrl : ∀ (u : List Char) (q : List Char × List Char),
        parseUrl u = some q → q.2.length ≤ u.length := by
      intro u q h
      unfold parseUrl at h
      by_cases h1 : u.take schemeHttps.length = schemeHttps
      · rw [if_pos h1] at h
        have hb := keyTail _ _ _ h
        have h2 : (u.drop schemeHttps.length).length ≤ u.length := by
          simp [List.length_drop]
        omega
      · rw [if_neg h1] at h
        by_cases h1b : u.take schemeHttp.length = schemeHttp
        · rw [if_pos h1b] at h
          have hb := keyTail _ _ _ h
          have h2 : (u.drop schemeHttp.length).length ≤ u.length := by
            simp [List.length_drop]
          omega
        · rw [if_neg h1b] at h
          exact absurd h (by simp)
    have keyLink : ∀ (u : List Char) (q : List Char × List Char × List Char),
        findLinkClose u = some q → q.2.2.length ≤ u.length := by
      intro u
      induction u with
      | nil => intro q h; simp [findLinkClose] at h
      | cons a t ih =>
        intro q h
        simp only [findLinkClose] at h
        by_cases hc : a = ']' ∧ t.head? = some '(' ∧ (parseUrl t.tail).isSome = true
        · rw [if_pos hc] at h
          cases hp : parseUrl t.tail with
          | none => rw [hp] at h; simp at h
          | some p =>
            rw [hp] at h
            simp only [Option.map_some'] at h
            cases h
            have hb := keyUrl _ _ hp
            have h2 : t.tail.length ≤ t.length := by cases t <;> simp
            simp only [List.length_cons]
            omega
        · rw [if_neg hc] at h
          by_cases hn : a = '\n'
          · rw [if_pos hn] at h
            exact absurd h (by simp)
          · rw [if_neg hn] at h
            cases hrec : findLinkClose t with
            | none => rw [hrec] at h; simp at h
            | some q2 =>
              rw [hrec] at h
              simp only [Option.map_some'] at h
              cases h
              have hlt := ih q2 hrec
              simp only [List.length_cons]
              omega
    have h1 := keyLink _ p hfl
    simp only [List.length_cons]
    exact Nat.lt_succ_of_le h1
  · simp
  · simp

/-- `.replace("\n", "<br>")`. -/
def replaceNewlines : List Char → List Char
  | [] => []
  | c :: rest => (if c = '\n' then "<br>".toList else [c]) ++ replaceNewlines rest

/-- `.replace("  ", "&nbsp;&nbsp;")`: non-overlapping, left to right. -/
def replaceDoubleSpace : List Char → List Char
  | [] => []
  | c :: rest =>
    if c = ' ' ∧ rest.head? = some ' ' then
      "&nbsp;&nbsp;".toList ++ replaceDoubleSpace rest.tail
    else c :: replaceDoubleSpace rest
termination_by l => l.length
decreasing_by
  · have h2 : ∀ u : List Char, u.tail.length ≤ u.length := by
      intro u
      cases u <;> simp
    simp only [List.length_cons]
    exact Nat.lt_succ_of_le (h2 _)
  · simp

/-- The fixed document shell before the converted text (the f-string at
src/app.py lines 99-103). -/
def htmlShellPre : String :=
  "\n    <html><body style=\"font-family: Verdana, sans-serif; font-size: 14px; line-height: 1.6;\">\n        "

/-- The fixed document shell after the converted text. -/
def htmlShellPost : String := "\n    </body></html>\n    "

/-- `convert_bold` (src/app.py lines 89-103): empty output on falsy input,
otherwise bold substitution, link substitution, newline and double-space
replacement, wrapped in the fixed shell. -/
def convert_bold (text : String) : String :=
  if text = "" then ""
  else
    htmlShellPre ++
      String.mk (replaceDoubleSpace (replaceNewlines (convertLinks (convertBoldMarks text.toList)))) ++
      htmlShellPost

/-! ## Data model of the dispatcher (src/app.py lines 195-376) -/

/-- A recipient row: the reserved columns plus the remaining template
fields (src/app.py lines 202-204 auto-add the reserved columns as `""`). -/
structure Row where
  Email : String := ""
  ThreadId : String := ""
  RfcMessageId : String := ""
  Status : String := ""
  fields : List (String × String) := []
deriving Repr, DecidableEq, Inhabited

/-- The three send modes of the radio control (src/app.py line 230). -/
inductive Mode where
  | new
  | followup
  | draft
deriving Repr, DecidableEq

/-- Outcome of the fallible per-row work inside the `try` block: a
successful remote send/draft call (with the provider-returned message and
thread ids), or an exception (template rendering or remote failure) with
its text. -/
inductive CallResult where
  | ok (msgId threadId : String)
  | fail (err : String)
deriving Repr, DecidableEq

/-- Oracle for one row: the result of its send/draft call, and the result
of each metadata-fetch attempt of `fetch_message_id_header` (`some v` when
a `Message-ID` header with value `v` is found, `none` on exception or a
missing header). -/
structure RowOracle where
  call : CallResult
  fetchAttempts : Nat → Option String

/-- The mutable state of one dispatch invocation (src/app.py lines 280-283
plus the data frame).  `sleeps` records every `time.sleep(random.uniform(a, b))`
call as the pair `(a, b)` of bounds passed to `random.uniform`. -/
structure DispatchState where
  df : List Row
  sent_count : Nat
  skipped : List String
  errors : List (String × String)
  batch_count : Nat
  sent_message_ids : List String
  sleeps : List (ℚ × ℚ)

/-- `BATCH_SIZE_DEFAULT = 50` (src/app.py line 50). -/
def BATCH_SIZE_DEFAULT : Nat := 50

/-- The bounds passed to `random.uniform(delay * 0.9, delay * 1.1)`. -/
def pacing (delay : ℚ) : ℚ × ℚ := (delay * (9 / 10), delay * (11 / 10))

/-- The retry loop of `fetch_message_id_header` (src/app.py lines 137-150):
`n` remaining attempts, `k` the index of the next attempt; on a failed
attempt, sleep `random.uniform(1, 2)` and retry; return `""` after
exhaustion.  Returns the fetched value and the recorded sleeps. -/
def fetchGo (attempts : Nat → Option String) (k : Nat) : Nat → String × List (ℚ × ℚ)
  | 0 => ("", [])
  | n + 1 =>
    match attempts k with
    | some v => (v, [])
    | none =>
      let r := fetchGo attempts (k + 1) n
      (r.1, ((1 : ℚ), (2 : ℚ)) :: r.2)

/-- `fetch_message_id_header`: up to 6 attempts. -/
def fetch_message_id_header (attempts : Nat → Option String) : String × List (ℚ × ℚ) :=
  fetchGo attempts 0 6

/-- One iteration of the dispatch loop body after the break check
(src/app.py lines 289-343): skip on no extractable address, otherwise run
the `try` block — on failure mark `Error` and record the pair, on success
update the row (draft or sent), record the pacing sleep and bump the
counters. -/
def processRow (mode : Mode) (delay : ℚ) (labelId : Option String)
    (orc : RowOracle) (idx : Nat) (s : DispatchState) : DispatchState :=
  let row := s.df.getD idx default
  match extract_email (pyStrip row.Email) with
  | none =>
    { s with
        skipped := s.skipped ++ [row.Email],
        df := s.df.set idx { row with Status := "Skipped" } }
  | some to_addr =>
    match orc.call with
    | CallResult.fail err =>
      { s with
          df := s.df.set idx { row with Status := "Error" },
          errors := s.errors ++ [(to_addr, err)] }
    | CallResult.ok msgId threadId =>
      if mode = Mode.draft then
        { s with
            df := s.df.set idx { row with Status := "Draft" },
            sleeps := s.sleeps ++ [pacing delay],
            sent_count := s.sent_count + 1,
            batch_count := s.batch_count + 1 }
      else
        let fr := fetch_message_id_header orc.fetchAttempts
        { s with
            df := s.df.set idx { row with
              ThreadId := threadId,
              RfcMessageId := pyOr fr.1 msgId,
              Status := "Sent" },
            sent_message_ids :=
              if mode = Mode.new ∧ labelId ≠ none then s.sent_message_ids ++ [msgId]
              else s.sent_message_ids,
            sleeps := s.sleeps ++ fr.2 ++ [pacing delay],
            sent_count := s.sent_count + 1,
            batch_count := s.batch_count + 1 }

/-- The dispatch loop (src/app.py lines 285-343): for each pending index,
break when the mode is not draft and `batch_count >= BATCH_SIZE_DEFAULT`,
else process the row. -/
def dispatchGo (mode : Mode) (delay : ℚ) (labelId : Option String)
    (orc : Nat → RowOracle) : List Nat → DispatchState → DispatchState
  | [], s => s
  | idx :: rest, s =>
    if mode ≠ Mode.draft ∧ BATCH_SIZE_DEFAULT ≤ s.batch_count then s
    else dispatchGo mode delay labelId orc rest (processRow mode delay labelId (orc idx) idx s)

/-- The counters and lists initialised at src/app.py lines 281-283. -/
def initState (df : List Row) : DispatchState :=
  { df := df, sent_count := 0, skipped := [], errors := [],
    batch_count := 0, sent_message_ids := [], sleeps := [] }

/-- `pending_indices = df.index[df["Status"] != "Sent"].tolist()`
(src/app.py line 215). -/
def pending_indices (df : List Row) : List Nat :=
  (List.range df.length).filter (fun i => decide ((df.getD i default).Status ≠ "Sent"))

/-- A full dispatch invocation over the pending set. -/
def runDispatch (mode : Mode) (delay : ℚ) (labelId : Option String)
    (orc : Nat → RowOracle) (df : List Row) : DispatchState :=
  dispatchGo mode delay labelId orc (pending_indices df) (initState df)

/-- The run summary (src/app.py line 375):
`{"sent": sent_count, "errors": errors, "skipped": skipped}`. -/
structure Summary where
  sent : Nat
  errors : List (String × String)
  skipped : List String
deriving Repr, DecidableEq

/-- Build the summary from the final dispatch state. -/
def summary (s : DispatchState) : Summary :=
  { sent := s.sent_count, errors := s.errors, skipped := s.skipped }

/-- `CallResult.ok` as a boolean. -/
def callIsOk : CallResult → Bool
  | CallResult.ok _ _ => true
  | CallResult.fail _ => false

/-- A row succeeds in the try block: its address is extractable and its
remote call succeeds. -/
def rowOkRow (o : RowOracle) (row : Row) : Bool :=
  (extract_email (pyStrip row.Email)).isSome && callIsOk o.call

/-- Index form of `rowOkRow` over a data frame. -/
def rowOk (orc : Nat → RowOracle) (df : List Row) (i : Nat) : Bool :=
  rowOkRow (orc i) (df.getD i default)

/-- The status a draft-mode run writes to a processed row. -/
def statusFor (o : RowOracle) (row : Row) : String :=
  match extract_email (pyStrip row.Email) with
  | none => "Skipped"
  | some _ =>
    match o.call with
    | CallResult.fail _ => "Error"
    | CallResult.ok _ _ => "Draft"

/-- Index form of `statusFor`: the status a draft-mode dispatch leaves on
pending row `i`. -/
def expectedDraftStatus (orc : Nat → RowOracle) (df : List Row) (i : Nat) : String :=
  statusFor (orc i) (df.getD i default)

/-! ## Resume marker (src/app.py lines 49 and 55-76) -/

/-- `DONE_FILE = "/tmp/mailmerge_done.json"`. -/
def DONE_FILE : String := "/tmp/mailmerge_done.json"

/-- The parsed content of the marker file: the completion time and the
value of the `"file"` key (absent when the JSON has no such key). -/
structure DoneInfo where
  done_time : String := ""
  file : Option String := none
deriving Repr, DecidableEq

/-- The startup recovery check (src/app.py lines 55-76) on a fresh run.
`fsExists` is the filesystem oracle for `os.path.exists`; `parsed` is
`some info` when opening and JSON-decoding `DONE_FILE` succeeds and `none`
when it raises (the `except: pass` path).  The check yields the export
path (the completed-run view is shown) exactly when the marker exists, is
readable, references a truthy path, and that artifact still exists. -/
def checkAndLoad (fsExists : String → Bool) (parsed : Option DoneInfo) : Option String :=
  if fsExists DONE_FILE then
    match parsed with
    | none => none
    | some info =>
      match info.file with
      | none => none
      | some p => if p ≠ "" ∧ fsExists p then some p else none
  else none

/-! ## Concrete fixtures used by witnesses and counterexamples -/

/-- A row with a valid address and otherwise default columns. -/
def rowValid : Row := { Email := "a@b.c" }

/-- One valid pending row. -/
def df1 : List Row := [rowValid]

/-- 51 valid pending rows. -/
def df51 : List Row := List.replicate 51 rowValid

/-- 60 valid pending rows. -/
def df60 : List Row := List.replicate 60 rowValid

/-- An oracle whose remote calls always fail. -/
def orcFail : Nat → RowOracle :=
  fun _ => { call := CallResult.fail "boom", fetchAttempts := fun _ => none }

/-- An oracle whose remote calls always succeed and whose metadata fetch
never resolves. -/
def orcOk : Nat → RowOracle :=
  fun _ => { call := CallResult.ok "m1" "t1", fetchAttempts := fun _ => none }

/-! ## Generic list lemmas -/

theorem getD_set_self {α : Type} (l : List α) (i : Nat) (a d : α) (h : i < l.length) :
    (l.set i a).getD i d = a := by
  induction l generalizing i with
  | nil => simp at h
  | cons x xs ih =>
    cases i with
    | zero => simp
    | succ n =>
      simp only [List.set_cons_succ, List.getD_cons_succ]
      exact ih n (by simpa using h)

theorem getD_set_ne {α : Type} (l : List α) (i j : Nat) (a d : α) (h : i ≠ j) :
    (l.set i a).getD j d = l.getD j d := by
  induction l generalizing i j with
  | nil => simp
  | cons x xs ih =>
    cases i with
    | zero =>
      cases j with
      | zero => exact absurd rfl h
      | succ m => simp
    | succ n =>
      cases j with
      | zero => simp
      | succ m =>
        simp only [List.set_cons_succ, List.getD_cons_succ]
        exact ih n m (fun he => h (by rw [he]))

theorem length_le_takeWhile_of_prefix {α : Type} (p : α → Bool) :
    ∀ (a l : List α), (∀ c ∈ a, p c = true) → a <+: l →
      a.length ≤ (l.takeWhile p).length := by
  intro a
  induction a with
  | nil => intro l _ _; simp
  | cons c a2 ih =>
    intro l ha hp
    rcases hp with ⟨t, rfl⟩
    have hc : p c = true := ha c (by simp)
    rw [List.cons_append, List.takeWhile_cons, if_pos hc]
    simp only [List.length_cons, Nat.succ_le_succ_iff]
    exact ih (a2 ++ t) (fun y hy => ha y (by simp [hy])) ⟨t, rfl⟩

theorem all_take_of_le_takeWhile {α : Type} (p : α → Bool) (l : List α) (j : Nat)
    (h : j ≤ (l.takeWhile p).length) : ∀ c ∈ l.take j, p c = true := by
  intro c hc
  have h1 : l.take j = (l.takeWhile p).take j ++ (l.dropWhile p).take (j - (l.takeWhile p).length) := by
    conv_lhs => rw [← List.takeWhile_append_dropWhile p l]
    exact List.take_append_eq_append_take
  rw [Nat.sub_eq_zero_of_le h, List.take_zero, List.append_nil] at h1
  rw [h1] at hc
  exact List.mem_takeWhile_imp (List.take_subset _ _ hc)

theorem takeWhile_append_cons {α : Type} (p : α → Bool) (a : List α) (c : α) (t : List α)
    (ha : ∀ x ∈ a, p x = true) (hc : p c = false) :
    (a ++ c :: t).takeWhile p = a := by
  induction a with
  | nil => simp [List.takeWhile_cons, hc]
  | cons x a2 ih =>
    have hx : p x = true := ha x (by simp)
    rw [List.cons_append, List.takeWhile_cons, if_pos hx,
      ih (fun y hy => ha y (by simp [hy]))]

/-! ## The recipient extractor: soundness and completeness of the matcher -/

theorem tryBacktrack_eq_none_iff (l : List Char) (k : List Char → Option (List Char)) :
    ∀ n, (tryBacktrack l k n = none ↔ ∀ j, 1 ≤ j → j ≤ n → k (l.drop j) = none) := by
  intro n
  induction n with
  | zero =>
    constructor
    · intro _ j h1 h2
      exact absurd h2 (by omega)
    · intro _
      rfl
  | succ n ih =>
    simp only [tryBacktrack]
    cases hk : k (l.drop (n + 1)) with
    | some res =>
      constructor
      · intro h
        exact absurd h (by simp)
      · intro h
        have h2 := h (n + 1) (by omega) (Nat.le_refl _)
        rw [hk] at h2
        exact absurd h2 (by simp)
    | none =>
      rw [ih]
      constructor
      · intro h j h1 h2
        rcases Nat.lt_or_ge j (n + 1) with hj | hj
        · exact h j h1 (by omega)
        · have hj2 : j = n + 1 := by omega
          rw [hj2]
          exact hk
      · intro h j h1 h2
        exact h j h1 (by omega)

theorem tryBacktrack_eq_some (l : List Char) (k : List Char → Option (List Char)) :
    ∀ n res, tryBacktrack l k n = some res →
      ∃ j, 1 ≤ j ∧ j ≤ n ∧ ∃ tl, k (l.drop j) = some tl ∧ res = l.take j ++ tl := by
  intro n
  induction n with
  | zero =>
    intro res h
    exact absurd h (by simp [tryBacktrack])
  | succ n ih =>
    intro res h
    simp only [tryBacktrack] at h
    cases hk : k (l.drop (n + 1)) with
    | some tl =>
      rw [hk] at h
      have h2 : some (l.take (n + 1) ++ tl) = some res := h
      cases h2
      exact ⟨n + 1, by omega, Nat.le_refl _, tl, hk, rfl⟩
    | none =>
      rw [hk] at h
      have h2 : tryBacktrack l k n = some res := h
      obtain ⟨j, h1, hj, tl, hk2, hres⟩ := ih res h2
      exact ⟨j, h1, by omega, tl, hk2, hres⟩

theorem matchTld_some (l m : List Char) (h : matchTld l = some m) :
    ∃ w, w ≠ [] ∧ (∀ c ∈ w, isWordChar c = true) ∧ m = '.' :: w ∧ ∃ t, l = m ++ t := by
  cases l with
  | nil => exact absurd h (by simp [matchTld])
  | cons c l4 =>
    simp only [matchTld] at h
    by_cases hc : c = '.'
    · rw [if_pos hc] at h
      by_cases hw : l4.takeWhile isWordChar = []
      · rw [if_pos hw] at h
        exact absurd h (by simp)
      · rw [if_neg hw] at h
        have h2 : some ('.' :: l4.takeWhile isWordChar) = some m := h
        cases h2
        refine ⟨l4.takeWhile isWordChar, hw, ?_, rfl, ⟨l4.dropWhile isWordChar, ?_⟩⟩
        · intro x hx
          exact List.mem_takeWhile_imp hx
        · rw [hc, List.cons_append, List.takeWhile_append_dropWhile]
    · rw [if_neg hc] at h
      exact absurd h (by simp)

theorem matchTld_ne_none (w t : List Char) (hw : w ≠ [])
    (hall : ∀ c ∈ w, isWordChar c = true) :
    matchTld ('.' :: (w ++ t)) ≠ none := by
  have h1 : w.length ≤ ((w ++ t).takeWhile isWordChar).length :=
    length_le_takeWhile_of_prefix _ w (w ++ t) hall ⟨t, rfl⟩
  have h2 : (w ++ t).takeWhile isWordChar ≠ [] := by
    intro he
    rw [he] at h1
    simp only [List.length_nil, Nat.le_zero, List.length_eq_zero] at h1
    exact hw h1
  simp only [matchTld, if_pos rfl]
  rw [if_neg h2]
  simp

theorem matchDomain_some (l m : List Char) (h : matchDomain l = some m) :
    ∃ b w, b ≠ [] ∧ w ≠ [] ∧ (∀ c ∈ b, isAtomChar c = true) ∧
      (∀ c ∈ w, isWordChar c = true) ∧ m = b ++ '.' :: w ∧ ∃ t, l = m ++ t := by
  unfold matchDomain at h
  obtain ⟨j, hj1, hj2, tl, hk, hres⟩ := tryBacktrack_eq_some l matchTld _ m h
  obtain ⟨w, hw, hwall, htl, t, hdrop⟩ := matchTld_some (l.drop j) tl hk
  have hjlen : j ≤ l.length := by
    by_contra hc
    push_neg at hc
    have hnil : l.drop j = [] := List.drop_eq_nil_of_le (by omega)
    rw [hnil, htl] at hdrop
    simp at hdrop
  refine ⟨l.take j, w, ?_, hw, ?_, hwall, ?_, ⟨t, ?_⟩⟩
  · intro he
    have hlen := congrArg List.length he
    simp only [List.length_take, List.length_nil] at hlen
    omega
  · exact all_take_of_le_takeWhile _ _ _ hj2
  · rw [hres, htl]
  · rw [hres, htl]
    conv_lhs => rw [← List.take_append_drop j l]
    rw [hdrop, htl]
    simp [List.append_assoc]

theorem matchDomain_ne_none (b w t : List Char) (hb : b ≠ []) (hw : w ≠ [])
    (hab : ∀ c ∈ b, isAtomChar c = true) (hww : ∀ c ∈ w, isWordChar c = true) :
    matchDomain (b ++ '.' :: (w ++ t)) ≠ none := by
  unfold matchDomain
  intro hnone
  rw [tryBacktrack_eq_none_iff] at hnone
  have hble : b.length ≤ ((b ++ '.' :: (w ++ t)).takeWhile isAtomChar).length :=
    length_le_takeWhile_of_prefix _ b _ hab ⟨'.' :: (w ++ t), rfl⟩
  have h1 : 1 ≤ b.length := by
    cases b with
    | nil => exact absurd rfl hb
    | cons _ _ => simp
  have hkey := hnone b.length h1 hble
  rw [List.drop_left] at hkey
  exact matchTld_ne_none w t hw hww hkey

theorem matchAfterAt_some (x tl : List Char) (h : matchAfterAt x = some tl) :
    ∃ l2 m2, x = '@' :: l2 ∧ matchDomain l2 = some m2 ∧ tl = '@' :: m2 := by
  cases x with
  | nil => exact absurd h (by simp [matchAfterAt])
  | cons c l2 =>
    simp only [matchAfterAt] at h
    by_cases hc : c = '@'
    · rw [if_pos hc] at h
      subst hc
      cases hd : matchDomain l2 with
      | none =>
        rw [hd] at h
        exact absurd h (by simp)
      | some m2 =>
        rw [hd] at h
        simp only [Option.map_some'] at h
        have h2 : some ('@' :: m2) = some tl := h
        cases h2
        exact ⟨l2, m2, rfl, hd, rfl⟩
    · rw [if_neg hc] at h
      exact absurd h (by simp)

theorem matchAt_some (l m : List Char) (h : matchAt l = some m) :
    MatchesEmail m ∧ m <+: l := by
  unfold matchAt at h
  obtain ⟨j, hj1, hj2, tl, hk, hres⟩ := tryBacktrack_eq_some l matchAfterAt _ m h
  obtain ⟨l2, m2, hx, hmd, htl⟩ := matchAfterAt_some _ _ hk
  obtain ⟨b, w, hbne, hwne, hball, hwall, hm2, t2, hl2⟩ := matchDomain_some _ _ hmd
  have hjlen : j ≤ l.length := by
    by_contra hc
    push_neg at hc
    have hnil : l.drop j = [] := List.drop_eq_nil_of_le (by omega)
    rw [hnil] at hx
    exact absurd hx (by simp)
  constructor
  · refine ⟨l.take j, b, w, ?_, ?_, hbne, hwne, ?_, hball, hwall⟩
    · rw [hres, htl, hm2]
    · intro he
      have hlen := congrArg List.length he
      simp only [List.length_take, List.length_nil] at hlen
      omega
    · exact all_take_of_le_takeWhile _ _ _ hj2
  · refine ⟨t2, ?_⟩
    rw [hres, htl, hm2]
    conv_rhs => rw [← List.take_append_drop j l]
    rw [hx, hl2, hm2]
    simp [List.append_assoc]

theorem matchAt_ne_none (l m : List Char) (hm : MatchesEmail m) (hp : m <+: l) :
    matchAt l ≠ none := by
  obtain ⟨a, b, w, hmeq, hane, hbne, hwne, haall, hball, hwall⟩ := hm
  obtain ⟨t, hlt⟩ := hp
  intro hnone
  unfold matchAt at hnone
  rw [tryBacktrack_eq_none_iff] at hnone
  have hshape : l = a ++ '@' :: (b ++ '.' :: (w ++ t)) := by
    rw [← hlt, hmeq]
    simp [List.append_assoc]
  have haprefix : a <+: l := ⟨'@' :: (b ++ '.' :: (w ++ t)), hshape.symm⟩
  have hble : a.length ≤ (l.takeWhile isAtomChar).length :=
    length_le_takeWhile_of_prefix _ a l haall haprefix
  have h1 : 1 ≤ a.length := by
    cases a with
    | nil => exact absurd rfl hane
    | cons _ _ => simp
  have hkey := hnone a.length h1 hble
  rw [hshape, List.drop_left] at hkey
  simp only [matchAfterAt, if_pos rfl] at hkey
  cases hmd : matchDomain (b ++ '.' :: (w ++ t)) with
  | none => exact matchDomain_ne_none b w t hbne hwne hball hwall hmd
  | some mm =>
    rw [hmd] at hkey
    exact absurd hkey (by simp)

theorem searchEmail_eq_none (l : List Char) (h : searchEmail l = none) :
    ∀ i, matchAt (l.drop i) = none := by
  induction l with
  | nil =>
    intro i
    rw [List.drop_nil]
    rfl
  | cons c rest ih =>
    intro i
    simp only [searchEmail] at h
    cases hma : matchAt (c :: rest) with
    | some m =>
      rw [hma] at h
      exact absurd h (by simp)
    | none =>
      rw [hma] at h
      cases i with
      | zero => exact hma
      | succ i2 =>
        rw [List.drop_succ_cons]
        exact ih h i2

theorem searchEmail_eq_some (l m : List Char) (h : searchEmail l = some m) :
    ∃ i, matchAt (l.drop i) = some m ∧ ∀ j, j < i → matchAt (l.drop j) = none := by
  induction l with
  | nil => exact absurd h (by simp [searchEmail])
  | cons c rest ih =>
    simp only [searchEmail] at h
    cases hma : matchAt (c :: rest) with
    | some m0 =>
      rw [hma] at h
      have h2 : some m0 = some m := h
      cases h2
      refine ⟨0, ?_, ?_⟩
      · rw [List.drop_zero]
        exact hma
      · intro j hj
        exact absurd hj (Nat.not_lt_zero j)
    | none =>
      rw [hma] at h
      obtain ⟨i, hi, hprev⟩ := ih h
      refine ⟨i + 1, ?_, ?_⟩
      · rw [List.drop_succ_cons]
        exact hi
      · intro j hj
        cases j with
        | zero =>
          rw [List.drop_zero]
          exact hma
        | succ j2 =>
          rw [List.drop_succ_cons]
          exact hprev j2 (by omega)

/-- C3: for every input containing a substring matching the email pattern,
`extract_email` returns a matching substring occurring at the leftmost
position where any match starts; for every input with no matching
substring (including the empty input), it returns `none`; it is a total
function, so it never fails on malformed input. -/
theorem extract_email_correct (s : String) :
    ((∃ i m, MatchesEmail m ∧ m <+: s.toList.drop i) →
      ∃ e, extract_email s = some e ∧ MatchesEmail e.toList ∧
        ∃ i, e.toList <+: s.toList.drop i ∧
          ∀ j, j < i → ∀ m, MatchesEmail m → ¬ m <+: s.toList.drop j) ∧
    ((∀ i m, MatchesEmail m → ¬ m <+: s.toList.drop i) → extract_email s = none) := by
  constructor
  · rintro ⟨i, m, hm, hp⟩
    have hsne : s ≠ "" := by
      intro he
      subst he
      obtain ⟨a, b, w, hmeq, hane, _⟩ := hm
      obtain ⟨t, hlt⟩ := hp
      rw [show ("" : String).toList = [] from rfl, List.drop_nil] at hlt
      rw [hmeq] at hlt
      simp at hlt
    cases hse : searchEmail s.toList with
    | none =>
      exact absurd (searchEmail_eq_none _ hse i) (matchAt_ne_none _ m hm hp)
    | some found =>
      obtain ⟨i0, hi0, hprev⟩ := searchEmail_eq_some _ _ hse
      have hfound := matchAt_some _ _ hi0
      refine ⟨String.mk found, ?_, ?_, i0, ?_, ?_⟩
      · unfold extract_email
        rw [if_neg hsne, hse]
        rfl
      · exact hfound.1
      · exact hfound.2
      · intro j hj m2 hm2 hp2
        exact absurd (hprev j hj) (matchAt_ne_none _ m2 hm2 hp2)
  · intro hno
    by_cases hse : s = ""
    · rw [hse]
      rfl
    · unfold extract_email
      rw [if_neg hse]
      cases hsr : searchEmail s.toList with
      | none => rfl
      | some found =>
        exfalso
        obtain ⟨i0, hi0, _⟩ := searchEmail_eq_some _ _ hsr
        have hf := matchAt_some _ _ hi0
        exact hno i0 found hf.1 hf.2

/-- Witness for C3: the positive branch at a concrete input. -/
theorem extract_email_correct_witness :
    ∃ e, extract_email "x@y.z" = some e ∧ MatchesEmail e.toList ∧
      ∃ i, e.toList <+: "x@y.z".toList.drop i ∧
        ∀ j, j < i → ∀ m, MatchesEmail m → ¬ m <+: "x@y.z".toList.drop j :=
  (extract_email_correct "x@y.z").1
    ⟨0, ['x', '@', 'y', '.', 'z'],
      ⟨['x'], ['y'], ['z'], rfl, by simp, by simp, by simp, by decide, by decide, by decide⟩,
      ⟨[], rfl⟩⟩

/-! ## Markup conversion lemmas -/

theorem findBoldClose_clean : ∀ (x t : List Char), (∀ c ∈ x, c ≠ '*' ∧ c ≠ '\n') →
    findBoldClose (x ++ '*' :: '*' :: t) = some (x, t) := by
  intro x
  induction x with
  | nil =>
    intro t _
    simp [findBoldClose]
  | cons c x2 ih =>
    intro t hx
    have hc := hx c (by simp)
    rw [List.cons_append]
    simp only [findBoldClose]
    rw [if_neg (fun hand => hc.1 hand.1), if_neg hc.2,
      ih t (fun y hy => hx y (by simp [hy]))]
    rfl

theorem convertBoldMarks_rule (x t : List Char) (hx : ∀ c ∈ x, c ≠ '*' ∧ c ≠ '\n') :
    convertBoldMarks ('*' :: '*' :: (x ++ '*' :: '*' :: t)) =
      "<b>".toList ++ x ++ "</b>".toList ++ convertBoldMarks t := by
  have hcond : ('*' : Char) = '*' ∧ ('*' :: (x ++ '*' :: '*' :: t) : List Char).head? = some '*' :=
    ⟨rfl, rfl⟩
  rw [convertBoldMarks, if_pos hcond]
  simp only [List.tail_cons]
  rw [findBoldClose_clean x t hx]

theorem parseUrlTail_run (scheme run t : List Char) (hr : run ≠ [])
    (hall : ∀ c ∈ run, urlChar c = true) :
    parseUrlTail scheme (run ++ ')' :: t) = some (scheme ++ run, t) := by
  have htw : (run ++ ')' :: t).takeWhile urlChar = run :=
    takeWhile_append_cons _ run ')' t hall (by decide)
  unfold parseUrlTail
  rw [htw, if_neg hr, List.drop_left]
  simp

theorem parseUrl_scheme (scheme run t : List Char)
    (hs : scheme = schemeHttp ∨ scheme = schemeHttps) (hr : run ≠ [])
    (hall : ∀ c ∈ run, urlChar c = true) :
    parseUrl (scheme ++ (run ++ ')' :: t)) = some (scheme ++ run, t) := by
  rcases hs with rfl | rfl
  · have hne : ¬((schemeHttp ++ (run ++ ')' :: t)).take schemeHttps.length = schemeHttps) := by
      intro h
      have h4 := congrArg (fun l => l[4]?) h
      simp only at h4
      rw [List.getElem?_take_of_lt (by decide)] at h4
      rw [List.getElem?_append_left (by decide)] at h4
      exact absurd h4 (by decide)
    unfold parseUrl
    rw [if_neg hne, List.take_left, if_pos rfl, List.drop_left]
    exact parseUrlTail_run _ run t hr hall
  · unfold parseUrl
    rw [List.take_left, if_pos rfl, List.drop_left]
    exact parseUrlTail_run _ run t hr hall

theorem findLinkClose_clean (lab rest2 url after : List Char)
    (hlab : ∀ c ∈ lab, c ≠ ']' ∧ c ≠ '\n') (hp : parseUrl rest2 = some (url, after)) :
    findLinkClose (lab ++ ']' :: '(' :: rest2) = some (lab, url, after) := by
  induction lab with
  | nil =>
    rw [List.nil_append]
    have hcond : (']' : Char) = ']' ∧ ('(' :: rest2 : List Char).head? = some '(' ∧
        (parseUrl ('(' :: rest2 : List Char).tail).isSome = true := by
      refine ⟨rfl, rfl, ?_⟩
      simp only [List.tail_cons]
      rw [hp]
      rfl
    rw [findLinkClose, if_pos hcond]
    simp only [List.tail_cons]
    rw [hp]
    rfl
  | cons c lab2 ih =>
    have hc := hlab c (by simp)
    rw [List.cons_append]
    simp only [findLinkClose, List.head?_cons, List.tail_cons]
    rw [if_neg (fun hand => hc.1 hand.1), if_neg hc.2,
      ih (fun y hy => hlab y (by simp [hy]))]
    rfl

theorem convertLinks_rule (lab scheme run t : List Char)
    (hlab : ∀ c ∈ lab, c ≠ ']' ∧ c ≠ '\n')
    (hs : scheme = schemeHttp ∨ scheme = schemeHttps)
    (hr : run ≠ []) (hall : ∀ c ∈ run, urlChar c = true) :
    convertLinks ('[' :: (lab ++ ']' :: '(' :: (scheme ++ (run ++ ')' :: t)))) =
      anchorOf (scheme ++ run) lab ++ convertLinks t := by
  have hp : parseUrl (scheme ++ (run ++ ')' :: t)) = some (scheme ++ run, t) :=
    parseUrl_scheme scheme run t hs hr hall
  rw [convertLinks]
  rw [if_pos rfl, findLinkClose_clean lab _ _ _ hlab hp]

theorem parseUrlTail_starts_with_scheme (sc u : List Char) (p : List Char × List Char)
    (h : parseUrlTail sc u = some p) : sc <+: p.1 := by
  unfold parseUrlTail at h
  by_cases hr : u.takeWhile urlChar = []
  · rw [if_pos hr] at h
    exact absurd h (by simp)
  · rw [if_neg hr] at h
    split at h
    · exact absurd h (by simp)
    · split at h
      · cases h
        exact List.prefix_append sc _
      · exact absurd h (by simp)

theorem parseUrl_url_scheme (u : List Char) (p : List Char × List Char)
    (h : parseUrl u = some p) : schemeHttps <+: p.1 ∨ schemeHttp <+: p.1 := by
  unfold parseUrl at h
  by_cases h1 : u.take schemeHttps.length = schemeHttps
  · rw [if_pos h1] at h
    exact Or.inl (parseUrlTail_starts_with_scheme _ _ _ h)
  · rw [if_neg h1] at h
    by_cases h2 : u.take schemeHttp.length = schemeHttp
    · rw [if_pos h2] at h
      exact Or.inr (parseUrlTail_starts_with_scheme _ _ _ h)
    · rw [if_neg h2] at h
      exact absurd h (by simp)

theorem findLinkClose_url_scheme (l : List Char) :
    ∀ (lab url after : List Char), findLinkClose l = some (lab, url, after) →
      schemeHttps <+: url ∨ schemeHttp <+: url := by
  induction l with
  | nil =>
    intro lab url after h
    exact absurd h (by simp [findLinkClose])
  | cons c rest ih =>
    intro lab url after h
    rw [findLinkClose] at h
    by_cases hc : c = ']' ∧ rest.head? = some '(' ∧ (parseUrl rest.tail).isSome = true
    · rw [if_pos hc] at h
      cases hp : parseUrl rest.tail with
      | none =>
        rw [hp] at h
        exact absurd h (by simp)
      | some p =>
        rw [hp] at h
        simp only [Option.map_some'] at h
        cases h
        exact parseUrl_url_scheme rest.tail p hp
    · rw [if_neg hc] at h
      by_cases hn : c = '\n'
      · rw [if_pos hn] at h
        exact absurd h (by simp)
      · rw [if_neg hn] at h
        cases hrec : findLinkClose rest with
        | none =>
          rw [hrec] at h
          exact absurd h (by simp)
        | some q =>
          rw [hrec] at h
          simp only [Option.map_some'] at h
          cases h
          exact ih q.1 q.2.1 q.2.2 hrec

theorem parseUrl_eq_none_of_no_scheme (u : List Char)
    (h1 : ¬ schemeHttp <+: u) (h2 : ¬ schemeHttps <+: u) : parseUrl u = none := by
  have k1 : ¬ (u.take schemeHttps.length = schemeHttps) := by
    intro hc
    exact h2 (hc ▸ List.take_prefix schemeHttps.length u)
  have k2 : ¬ (u.take schemeHttp.length = schemeHttp) := by
    intro hc
    exact h1 (hc ▸ List.take_prefix schemeHttp.length u)
  unfold parseUrl
  rw [if_neg k1, if_neg k2]

theorem findLinkClose_eq_none_of_no_parse (l : List Char)
    (h : ∀ u, u <:+ l → parseUrl u = none) : findLinkClose l = none := by
  induction l with
  | nil => rfl
  | cons c rest ih =>
    rw [findLinkClose]
    have hp : parseUrl rest.tail = none :=
      h rest.tail ((List.tail_suffix rest).trans (List.suffix_cons c rest))
    have hcond : ¬ (c = ']' ∧ rest.head? = some '(' ∧ (parseUrl rest.tail).isSome = true) := by
      intro hand
      rw [hp] at hand
      exact absurd hand.2.2 (by simp)
    rw [if_neg hcond]
    by_cases hn : c = '\n'
    · rw [if_pos hn]
    · rw [if_neg hn, ih (fun u hu => h u (hu.trans (List.suffix_cons c rest)))]
      rfl

theorem convertLinks_id_of_no_parse (l : List Char)
    (h : ∀ u, u <:+ l → parseUrl u = none) : convertLinks l = l := by
  induction l with
  | nil => rw [convertLinks]
  | cons c rest ih =>
    have hrest : ∀ u, u <:+ rest → parseUrl u = none :=
      fun u hu => h u (hu.trans (List.suffix_cons c rest))
    by_cases hc : c = '['
    · rw [convertLinks, if_pos hc, findLinkClose_eq_none_of_no_parse rest hrest, ih hrest]
    · rw [convertLinks, if_neg hc, ih hrest]

theorem convertLinks_non_http (l : List Char)
    (h1 : ¬ schemeHttp <:+: l) (h2 : ¬ schemeHttps <:+: l) : convertLinks l = l := by
  apply convertLinks_id_of_no_parse
  intro u hu
  by_cases hp1 : schemeHttp <+: u
  · exact absurd (hp1.isInfix.trans hu.isInfix) h1
  · by_cases hp2 : schemeHttps <+: u
    · exact absurd (hp2.isInfix.trans hu.isInfix) h2
    · exact parseUrl_eq_none_of_no_scheme u hp1 hp2

theorem convertLinks_ftp :
    convertLinks "[a](ftp://b)".toList = "[a](ftp://b)".toList := by
  show convertLinks
      ('[' :: 'a' :: ']' :: '(' :: 'f' :: 't' :: 'p' :: ':' :: '/' :: '/' :: 'b' :: ')' :: []) =
    ('[' :: 'a' :: ']' :: '(' :: 'f' :: 't' :: 'p' :: ':' :: '/' :: '/' :: 'b' :: ')' :: [])
  have h1 : findLinkClose
      ('a' :: ']' :: '(' :: 'f' :: 't' :: 'p' :: ':' :: '/' :: '/' :: 'b' :: ')' :: []) = none := by
    decide
  rw [convertLinks, if_pos rfl, h1]
  rw [convertLinks, if_neg (by decide)]
  rw [convertLinks, if_neg (by decide)]
  rw [convertLinks, if_neg (by decide)]
  rw [convertLinks, if_neg (by decide)]
  rw [convertLinks, if_neg (by decide)]
  rw [convertLinks, if_neg (by decide)]
  rw [convertLinks, if_neg (by decide)]
  rw [convertLinks, if_neg (by decide)]
  rw [convertLinks, if_neg (by decide)]
  rw [convertLinks, if_neg (by decide)]
  rw [convertLinks, if_neg (by decide)]
  rw [convertLinks]

theorem replaceNewlines_rule (a b : List Char) (ha : ∀ c ∈ a, c ≠ '\n') :
    replaceNewlines (a ++ '\n' :: b) = a ++ "<br>".toList ++ replaceNewlines b := by
  induction a with
  | nil => simp [replaceNewlines]
  | cons c a2 ih =>
    have hc := ha c (by simp)
    rw [List.cons_append]
    simp only [replaceNewlines]
    rw [if_neg hc, ih (fun y hy => ha y (by simp [hy]))]
    simp

theorem replaceDoubleSpace_rule (b : List Char) :
    replaceDoubleSpace (' ' :: ' ' :: b) =
      "&nbsp;&nbsp;".toList ++ replaceDoubleSpace b := by
  have hcond : (' ' : Char) = ' ' ∧ (' ' :: b : List Char).head? = some ' ' := ⟨rfl, rfl⟩
  rw [replaceDoubleSpace, if_pos hcond]
  rw [List.tail_cons]

/-- C8 (amended): the conversion rules of `convert_bold`, stated at the
stage where each substitution happens, plus the fixed-shell wrapping for
every NONEMPTY template string.  (The empty template yields the empty
string, not a wrapped shell — see the counterexample.)  The non-http(s)
clause is universal: every link the converter ever matches has a URL
beginning with `http://` or `https://`, and any text containing no
occurrence of either scheme — in particular any `[label](url)` whose url
has a non-http(s) scheme — is left as literal unconverted text. -/
theorem markup_conversion_amended :
    (∀ x t : List Char, (∀ c ∈ x, c ≠ '*' ∧ c ≠ '\n') →
      convertBoldMarks ('*' :: '*' :: (x ++ '*' :: '*' :: t)) =
        "<b>".toList ++ x ++ "</b>".toList ++ convertBoldMarks t) ∧
    (∀ lab scheme run t : List Char, (∀ c ∈ lab, c ≠ ']' ∧ c ≠ '\n') →
      scheme = schemeHttp ∨ scheme = schemeHttps → run ≠ [] →
      (∀ c ∈ run, urlChar c = true) →
      convertLinks ('[' :: (lab ++ ']' :: '(' :: (scheme ++ (run ++ ')' :: t)))) =
        anchorOf (scheme ++ run) lab ++ convertLinks t) ∧
    (∀ l lab url after : List Char, findLinkClose l = some (lab, url, after) →
      schemeHttps <+: url ∨ schemeHttp <+: url) ∧
    (∀ l : List Char, ¬ schemeHttp <:+: l → ¬ schemeHttps <:+: l →
      convertLinks l = l) ∧
    convertLinks "[a](ftp://b)".toList = "[a](ftp://b)".toList ∧
    (∀ a b : List Char, (∀ c ∈ a, c ≠ '\n') →
      replaceNewlines (a ++ '\n' :: b) = a ++ "<br>".toList ++ replaceNewlines b) ∧
    (∀ b : List Char, replaceDoubleSpace (' ' :: ' ' :: b) =
      "&nbsp;&nbsp;".toList ++ replaceDoubleSpace b) ∧
    (∀ t : String, t ≠ "" → ∃ mid, convert_bold t = htmlShellPre ++ mid ++ htmlShellPost) := by
  refine ⟨convertBoldMarks_rule, convertLinks_rule,
    (fun l lab url after h => findLinkClose_url_scheme l lab url after h),
    convertLinks_non_http, convertLinks_ftp,
    replaceNewlines_rule, replaceDoubleSpace_rule, ?_⟩
  intro t h
  unfold convert_bold
  rw [if_neg h]
  exact ⟨_, rfl⟩

/-- Counterexample for C8 as stated: the empty template string is a
template string, but `convert_bold ""` is `""`, which is not wrapped in
the document shell. -/
theorem convert_bold_empty_counterexample :
    convert_bold "" = "" ∧
      ¬ ∃ mid, convert_bold "" = htmlShellPre ++ mid ++ htmlShellPost := by
  refine ⟨rfl, ?_⟩
  rintro ⟨mid, h⟩
  rw [show convert_bold "" = "" from rfl] at h
  have hl := congrArg String.length h
  rw [String.length_append, String.length_append] at hl
  rw [show ("" : String).length = 0 from rfl] at hl
  have hpos : 0 < htmlShellPre.length := by decide
  omega

/-- Witness for C8 at concrete inputs, including the universal non-http(s)
clause applied to a concrete ftp link. -/
theorem markup_conversion_amended_witness :
    convertBoldMarks ('*' :: '*' :: (['x'] ++ '*' :: '*' :: [])) =
      "<b>".toList ++ ['x'] ++ "</b>".toList ++ convertBoldMarks [] ∧
    convertLinks "[a](ftp://b)".toList = "[a](ftp://b)".toList ∧
    (∃ mid, convert_bold "**x**" = htmlShellPre ++ mid ++ htmlShellPost) := by
  refine ⟨markup_conversion_amended.1 ['x'] [] (by decide), ?_, ?_⟩
  · exact markup_conversion_amended.2.2.2.1 "[a](ftp://b)".toList (by decide) (by decide)
  · exact markup_conversion_amended.2.2.2.2.2.2.2 "**x**" (by decide)

/-! ## Dispatcher lemmas -/

theorem countP_congr_mem {α : Type} (l : List α) (p q : α → Bool)
    (h : ∀ a ∈ l, p a = q a) : l.countP p = l.countP q := by
  induction l with
  | nil => rfl
  | cons a t ih =>
    rw [List.countP_cons, List.countP_cons, h a (by simp),
      ih (fun b hb => h b (by simp [hb]))]

theorem mem_pending_indices (df : List Row) (i : Nat) :
    i ∈ pending_indices df ↔ i < df.length ∧ (df.getD i default).Status ≠ "Sent" := by
  unfold pending_indices
  rw [List.mem_filter, List.mem_range]
  simp only [decide_eq_true_eq]

theorem pending_indices_nodup (df : List Row) : (pending_indices df).Nodup :=
  (List.nodup_range _).filter _

theorem pending_indices_sorted (df : List Row) :
    List.Sorted (· < ·) (pending_indices df) :=
  (List.sorted_lt_range df.length).sublist (List.filter_sublist _)

theorem processRow_skip (mode : Mode) (delay : ℚ) (lbl : Option String)
    (o : RowOracle) (idx : Nat) (s : DispatchState)
    (h : extract_email (pyStrip ((s.df.getD idx default).Email)) = none) :
    processRow mode delay lbl o idx s =
      { s with
          skipped := s.skipped ++ [(s.df.getD idx default).Email],
          df := s.df.set idx { s.df.getD idx default with Status := "Skipped" } } := by
  dsimp only [processRow]
  rw [h]

theorem processRow_fail (mode : Mode) (delay : ℚ) (lbl : Option String)
    (o : RowOracle) (idx : Nat) (s : DispatchState) (addr err : String)
    (h : extract_email (pyStrip ((s.df.getD idx default).Email)) = some addr)
    (hf : o.call = CallResult.fail err) :
    processRow mode delay lbl o idx s =
      { s with
          df := s.df.set idx { s.df.getD idx default with Status := "Error" },
          errors := s.errors ++ [(addr, err)] } := by
  dsimp only [processRow]
  rw [h, hf]

theorem processRow_draft_ok (delay : ℚ) (lbl : Option String)
    (o : RowOracle) (idx : Nat) (s : DispatchState) (msgId threadId addr : String)
    (h : extract_email (pyStrip ((s.df.getD idx default).Email)) = some addr)
    (hc : o.call = CallResult.ok msgId threadId) :
    processRow Mode.draft delay lbl o idx s =
      { s with
          df := s.df.set idx { s.df.getD idx default with Status := "Draft" },
          sleeps := s.sleeps ++ [pacing delay],
          sent_count := s.sent_count + 1,
          batch_count := s.batch_count + 1 } := by
  dsimp only [processRow]
  rw [h, hc]
  rfl

theorem processRow_send_ok (mode : Mode) (delay : ℚ) (lbl : Option String)
    (o : RowOracle) (idx : Nat) (s : DispatchState) (msgId threadId addr : String)
    (hm : mode ≠ Mode.draft)
    (h : extract_email (pyStrip ((s.df.getD idx default).Email)) = some addr)
    (hc : o.call = CallResult.ok msgId threadId) :
    processRow mode delay lbl o idx s =
      { s with
          df := s.df.set idx { s.df.getD idx default with
            ThreadId := threadId,
            RfcMessageId := pyOr (fetch_message_id_header o.fetchAttempts).1 msgId,
            Status := "Sent" },
          sent_message_ids :=
            if mode = Mode.new ∧ lbl ≠ none then s.sent_message_ids ++ [msgId]
            else s.sent_message_ids,
          sleeps := s.sleeps ++ (fetch_message_id_header o.fetchAttempts).2 ++ [pacing delay],
          sent_count := s.sent_count + 1,
          batch_count := s.batch_count + 1 } := by
  dsimp only [processRow]
  rw [h, hc]
  dsimp only
  rw [if_neg hm]

theorem processRow_df_length (mode : Mode) (delay : ℚ) (lbl : Option String)
    (o : RowOracle) (idx : Nat) (s : DispatchState) :
    (processRow mode delay lbl o idx s).df.length = s.df.length := by
  cases hext : extract_email (pyStrip ((s.df.getD idx default).Email)) with
  | none =>
    rw [processRow_skip mode delay lbl o idx s hext]
    simp [List.length_set]
  | some addr =>
    cases hc : o.call with
    | fail err =>
      rw [processRow_fail mode delay lbl o idx s addr err hext hc]
      simp [List.length_set]
    | ok msgId threadId =>
      by_cases hm : mode = Mode.draft
      · subst hm
        rw [processRow_draft_ok delay lbl o idx s msgId threadId addr hext hc]
        simp [List.length_set]
      · rw [processRow_send_ok mode delay lbl o idx s msgId threadId addr hm hext hc]
        simp [List.length_set]

theorem processRow_getD_ne (mode : Mode) (delay : ℚ) (lbl : Option String)
    (o : RowOracle) (idx : Nat) (s : DispatchState) (j : Nat) (d : Row) (h : idx ≠ j) :
    (processRow mode delay lbl o idx s).df.getD j d = s.df.getD j d := by
  cases hext : extract_email (pyStrip ((s.df.getD idx default).Email)) with
  | none =>
    rw [processRow_skip mode delay lbl o idx s hext]
    exact getD_set_ne _ _ _ _ _ h
  | some addr =>
    cases hc : o.call with
    | fail err =>
      rw [processRow_fail mode delay lbl o idx s addr err hext hc]
      exact getD_set_ne _ _ _ _ _ h
    | ok msgId threadId =>
      by_cases hm : mode = Mode.draft
      · subst hm
        rw [processRow_draft_ok delay lbl o idx s msgId threadId addr hext hc]
        exact getD_set_ne _ _ _ _ _ h
      · rw [processRow_send_ok mode delay lbl o idx s msgId threadId addr hm hext hc]
        exact getD_set_ne _ _ _ _ _ h

theorem processRow_batch_sent (mode : Mode) (delay : ℚ) (lbl : Option String)
    (o : RowOracle) (idx : Nat) (s : DispatchState) :
    (processRow mode delay lbl o idx s).batch_count =
      s.batch_count + (if rowOkRow o (s.df.getD idx default) then 1 else 0) ∧
    (processRow mode delay lbl o idx s).sent_count =
      s.sent_count + (if rowOkRow o (s.df.getD idx default) then 1 else 0) := by
  have hrow : rowOkRow o (s.df.getD idx default) =
      ((extract_email (pyStrip ((s.df.getD idx default).Email))).isSome && callIsOk o.call) := rfl
  cases hext : extract_email (pyStrip ((s.df.getD idx default).Email)) with
  | none =>
    have hok : rowOkRow o (s.df.getD idx default) = false := by
      rw [hrow, hext]
      rfl
    rw [processRow_skip mode delay lbl o idx s hext, hok]
    simp
  | some addr =>
    cases hc : o.call with
    | fail err =>
      have hok : rowOkRow o (s.df.getD idx default) = false := by
        rw [hrow, hext, hc]
        rfl
      rw [processRow_fail mode delay lbl o idx s addr err hext hc, hok]
      simp
    | ok msgId threadId =>
      have hok : rowOkRow o (s.df.getD idx default) = true := by
        rw [hrow, hext, hc]
        rfl
      by_cases hm : mode = Mode.draft
      · subst hm
        rw [processRow_draft_ok delay lbl o idx s msgId threadId addr hext hc, hok]
        simp
      · rw [processRow_send_ok mode delay lbl o idx s msgId threadId addr hm hext hc, hok]
        simp

theorem dispatchGo_df_length (mode : Mode) (delay : ℚ) (lbl : Option String)
    (orc : Nat → RowOracle) :
    ∀ (l : List Nat) (s : DispatchState),
      (dispatchGo mode delay lbl orc l s).df.length = s.df.length := by
  intro l
  induction l with
  | nil => intro s; rfl
  | cons idx rest ih =>
    intro s
    simp only [dispatchGo]
    by_cases hbreak : mode ≠ Mode.draft ∧ BATCH_SIZE_DEFAULT ≤ s.batch_count
    · rw [if_pos hbreak]
    · rw [if_neg hbreak, ih, processRow_df_length]

theorem dispatchGo_frame (mode : Mode) (delay : ℚ) (lbl : Option String)
    (orc : Nat → RowOracle) :
    ∀ (l : List Nat) (s : DispatchState) (j : Nat) (d : Row), j ∉ l →
      (dispatchGo mode delay lbl orc l s).df.getD j d = s.df.getD j d := by
  intro l
  induction l with
  | nil => intro s j d _; rfl
  | cons idx rest ih =>
    intro s j d hj
    simp only [dispatchGo]
    by_cases hbreak : mode ≠ Mode.draft ∧ BATCH_SIZE_DEFAULT ≤ s.batch_count
    · rw [if_pos hbreak]
    · rw [if_neg hbreak]
      have hj1 : j ∉ rest := fun hh => hj (by simp [hh])
      have hj2 : idx ≠ j := fun he => hj (by simp [he])
      rw [ih _ j d hj1, processRow_getD_ne mode delay lbl (orc idx) idx s j d hj2]

theorem dispatchGo_batch_le (mode : Mode) (delay : ℚ) (lbl : Option String)
    (orc : Nat → RowOracle) (hm : mode ≠ Mode.draft) :
    ∀ (l : List Nat) (s : DispatchState), s.batch_count ≤ BATCH_SIZE_DEFAULT →
      (dispatchGo mode delay lbl orc l s).batch_count ≤ BATCH_SIZE_DEFAULT := by
  intro l
  induction l with
  | nil => intro s h; exact h
  | cons idx rest ih =>
    intro s h
    simp only [dispatchGo]
    by_cases hbreak : mode ≠ Mode.draft ∧ BATCH_SIZE_DEFAULT ≤ s.batch_count
    · rw [if_pos hbreak]
      exact h
    · rw [if_neg hbreak]
      have hlt : s.batch_count < BATCH_SIZE_DEFAULT := by
        rcases Nat.lt_or_ge s.batch_count BATCH_SIZE_DEFAULT with h2 | h2
        · exact h2
        · exact absurd ⟨hm, h2⟩ hbreak
      apply ih
      rw [(processRow_batch_sent mode delay lbl (orc idx) idx s).1]
      cases hok : rowOkRow (orc idx) (s.df.getD idx default)
      all_goals simp
      all_goals omega

theorem dispatchGo_batch_eq_sent (mode : Mode) (delay : ℚ) (lbl : Option String)
    (orc : Nat → RowOracle) :
    ∀ (l : List Nat) (s : DispatchState), s.batch_count = s.sent_count →
      (dispatchGo mode delay lbl orc l s).batch_count =
        (dispatchGo mode delay lbl orc l s).sent_count := by
  intro l
  induction l with
  | nil => intro s h; exact h
  | cons idx rest ih =>
    intro s h
    simp only [dispatchGo]
    by_cases hbreak : mode ≠ Mode.draft ∧ BATCH_SIZE_DEFAULT ≤ s.batch_count
    · rw [if_pos hbreak]
      exact h
    · rw [if_neg hbreak]
      apply ih
      rw [(processRow_batch_sent mode delay lbl (orc idx) idx s).1,
        (processRow_batch_sent mode delay lbl (orc idx) idx s).2, h]

theorem statusFor_of_ok (o : RowOracle) (row : Row) (h : rowOkRow o row = true) :
    statusFor o row = "Draft" := by
  unfold rowOkRow at h
  unfold statusFor
  cases hext : extract_email (pyStrip row.Email) with
  | none =>
    rw [hext] at h
    simp at h
  | some a =>
    cases hc : o.call with
    | fail e =>
      rw [hc] at h
      simp [callIsOk] at h
    | ok m t => rfl

theorem processRow_draft_row (delay : ℚ) (lbl : Option String)
    (o : RowOracle) (idx : Nat) (s : DispatchState) (hlen : idx < s.df.length) :
    (processRow Mode.draft delay lbl o idx s).df.getD idx default =
      { s.df.getD idx default with Status := statusFor o (s.df.getD idx default) } ∧
    (processRow Mode.draft delay lbl o idx s).sent_count =
      s.sent_count + (if rowOkRow o (s.df.getD idx default) then 1 else 0) := by
  refine ⟨?_, (processRow_batch_sent Mode.draft delay lbl o idx s).2⟩
  cases hext : extract_email (pyStrip ((s.df.getD idx default).Email)) with
  | none =>
    rw [processRow_skip Mode.draft delay lbl o idx s hext]
    dsimp only
    rw [getD_set_self _ _ _ _ hlen]
    unfold statusFor
    rw [hext]
  | some addr =>
    cases hc : o.call with
    | fail err =>
      rw [processRow_fail Mode.draft delay lbl o idx s addr err hext hc]
      dsimp only
      rw [getD_set_self _ _ _ _ hlen]
      unfold statusFor
      rw [hext, hc]
    | ok msgId threadId =>
      rw [processRow_draft_ok delay lbl o idx s msgId threadId addr hext hc]
      dsimp only
      rw [getD_set_self _ _ _ _ hlen]
      unfold statusFor
      rw [hext, hc]

theorem dispatchGo_draft (delay : ℚ) (lbl : Option String) (orc : Nat → RowOracle) :
    ∀ (l : List Nat) (s : DispatchState), l.Nodup → (∀ i ∈ l, i < s.df.length) →
      (∀ i ∈ l, (dispatchGo Mode.draft delay lbl orc l s).df.getD i default =
        { s.df.getD i default with Status := statusFor (orc i) (s.df.getD i default) }) ∧
      (dispatchGo Mode.draft delay lbl orc l s).sent_count =
        s.sent_count + l.countP (fun i => rowOkRow (orc i) (s.df.getD i default)) := by
  intro l
  induction l with
  | nil =>
    intro s _ _
    exact ⟨fun i hi => absurd hi (List.not_mem_nil i), by simp [dispatchGo]⟩
  | cons idx rest ih =>
    intro s hnd hbound
    have hnobreak : ¬(Mode.draft ≠ Mode.draft ∧ BATCH_SIZE_DEFAULT ≤ s.batch_count) := by simp
    simp only [dispatchGo]
    rw [if_neg hnobreak]
    have hidxlen : idx < s.df.length := hbound idx (by simp)
    have hidxnot : idx ∉ rest := (List.nodup_cons.mp hnd).1
    have hndrest : rest.Nodup := (List.nodup_cons.mp hnd).2
    have hrow_ne : ∀ i ∈ rest,
        (processRow Mode.draft delay lbl (orc idx) idx s).df.getD i default =
          s.df.getD i default := by
      intro i hi
      exact processRow_getD_ne Mode.draft delay lbl (orc idx) idx s i default
        (fun he => hidxnot (he ▸ hi))
    have hboundrest : ∀ i ∈ rest,
        i < (processRow Mode.draft delay lbl (orc idx) idx s).df.length := by
      intro i hi
      rw [processRow_df_length]
      exact hbound i (by simp [hi])
    obtain ⟨ihrow, ihcount⟩ :=
      ih (processRow Mode.draft delay lbl (orc idx) idx s) hndrest hboundrest
    constructor
    · intro i hi
      rcases List.mem_cons.mp hi with rfl | hi2
      · rw [dispatchGo_frame Mode.draft delay lbl orc rest _ i default hidxnot]
        exact (processRow_draft_row delay lbl (orc i) i s hidxlen).1
      · rw [ihrow i hi2, hrow_ne i hi2]
    · rw [ihcount, (processRow_draft_row delay lbl (orc idx) idx s hidxlen).2]
      have hcong : rest.countP
            (fun i => rowOkRow (orc i)
              ((processRow Mode.draft delay lbl (orc idx) idx s).df.getD i default)) =
          rest.countP (fun i => rowOkRow (orc i) (s.df.getD i default)) := by
        apply countP_congr_mem
        intro a ha
        rw [hrow_ne a ha]
      rw [hcong, List.countP_cons]
      cases hok : rowOkRow (orc idx) (s.df.getD idx default)
      all_goals simp
      all_goals omega

/-- C1: the pending set is exactly the indices of rows whose `Status` is
not `"Sent"`, in original (strictly increasing) row order; rows with any
other status are included. -/
theorem pending_indices_spec (df : List Row) :
    (∀ i, i ∈ pending_indices df ↔ i < df.length ∧ (df.getD i default).Status ≠ "Sent") ∧
    List.Sorted (· < ·) (pending_indices df) :=
  ⟨fun i => mem_pending_indices df i, pending_indices_sorted df⟩

/-- C2 (amended): in a non-draft dispatch the success counter
`batch_count` never exceeds `BATCH_SIZE_DEFAULT` and always equals
`sent_count` — the cap bounds the number of rows processed SUCCESSFULLY,
not the number of rows attempted (skipped and errored rows do not count
toward the cap, so more than 50 rows can be attempted; see the
counterexample).  Draft mode is exempt: every pending row is processed,
ending at the status its own outcome dictates. -/
theorem batch_cap_amended (delay : ℚ) (lbl : Option String)
    (orc : Nat → RowOracle) (df : List Row) :
    (∀ mode, mode ≠ Mode.draft →
      (runDispatch mode delay lbl orc df).batch_count ≤ BATCH_SIZE_DEFAULT ∧
      (runDispatch mode delay lbl orc df).batch_count =
        (runDispatch mode delay lbl orc df).sent_count) ∧
    (∀ idx ∈ pending_indices df,
      ((runDispatch Mode.draft delay lbl orc df).df.getD idx default).Status =
        expectedDraftStatus orc df idx) := by
  constructor
  · intro mode hm
    constructor
    · exact dispatchGo_batch_le mode delay lbl orc hm _ _ (by simp [initState, BATCH_SIZE_DEFAULT])
    · exact dispatchGo_batch_eq_sent mode delay lbl orc _ _ rfl
  · intro idx hidx
    have hb : ∀ i ∈ pending_indices df, i < (initState df).df.length := by
      intro i hi
      exact ((mem_pending_indices df i).mp hi).1
    have h := (dispatchGo_draft delay lbl orc (pending_indices df) (initState df)
      (pending_indices_nodup df) hb).1 idx hidx
    unfold runDispatch
    rw [h]
    rfl

/-- Counterexample for C2 as stated: with 51 pending rows whose remote
calls all fail, a single non-draft dispatch attempts all 51 rows (each
attempt appends one entry to `errors`), exceeding the 50-row cap the
claim asserts for attempts. -/
theorem batch_cap_counterexample :
    (runDispatch Mode.new 20 none orcFail df51).errors.length = 51 ∧
      BATCH_SIZE_DEFAULT < (runDispatch Mode.new 20 none orcFail df51).errors.length := by
  constructor
  · decide
  · decide

/-- Witness for C2 (amended). -/
theorem batch_cap_amended_witness :
    (runDispatch Mode.new 20 none orcOk df1).batch_count ≤ BATCH_SIZE_DEFAULT ∧
    ((runDispatch Mode.draft 20 none orcOk df1).df.getD 0 default).Status =
      expectedDraftStatus orcOk df1 0 := by
  refine ⟨((batch_cap_amended 20 none orcOk df1).1 Mode.new (by decide)).1, ?_⟩
  exact (batch_cap_amended 20 none orcOk df1).2 0 (by decide)

/-- C4: when a pending row's remote call fails, the dispatcher marks that
row `Error`, records the recipient address and error text, and the loop
continues with the remaining rows exactly as if restarted from the updated
state — a per-row failure never aborts the batch. -/
theorem per_row_error_containment (mode : Mode) (delay : ℚ) (lbl : Option String)
    (orc : Nat → RowOracle) (idx : Nat) (rest : List Nat)
    (s : DispatchState) (addr err : String)
    (hnb : ¬(mode ≠ Mode.draft ∧ BATCH_SIZE_DEFAULT ≤ s.batch_count))
    (haddr : extract_email (pyStrip ((s.df.getD idx default).Email)) = some addr)
    (hfail : (orc idx).call = CallResult.fail err) :
    dispatchGo mode delay lbl orc (idx :: rest) s =
      dispatchGo mode delay lbl orc rest
        { s with
            df := s.df.set idx { s.df.getD idx default with Status := "Error" },
            errors := s.errors ++ [(addr, err)] } := by
  simp only [dispatchGo]
  rw [if_neg hnb, processRow_fail mode delay lbl (orc idx) idx s addr err haddr hfail]

/-- Witness for C4 at a concrete input. -/
theorem per_row_error_containment_witness :
    dispatchGo Mode.new 20 none orcFail [0] (initState df1) =
      dispatchGo Mode.new 20 none orcFail []
        { initState df1 with
            df := (initState df1).df.set 0
              { (initState df1).df.getD 0 default with Status := "Error" },
            errors := (initState df1).errors ++ [("a@b.c", "boom")] } :=
  per_row_error_containment Mode.new 20 none orcFail 0 [] (initState df1)
    "a@b.c" "boom" (by decide) (by decide) rfl

/-! ## Sleep accounting (C5) -/

theorem fetchGo_sleeps_all (attempts : Nat → Option String) :
    ∀ (n k : Nat), ∀ x ∈ (fetchGo attempts k n).2, x = ((1 : ℚ), (2 : ℚ)) := by
  intro n
  induction n with
  | zero =>
    intro k x hx
    simp [fetchGo] at hx
  | succ n ih =>
    intro k x hx
    dsimp only [fetchGo] at hx
    cases ha : attempts k with
    | some v =>
      rw [ha] at hx
      simp at hx
    | none =>
      rw [ha] at hx
      have hx2 : x ∈ ((1 : ℚ), (2 : ℚ)) :: (fetchGo attempts (k + 1) n).2 := hx
      rcases List.mem_cons.mp hx2 with rfl | hx3
      · rfl
      · exact ih (k + 1) x hx3

theorem processRow_sleep_count (mode : Mode) (delay : ℚ) (lbl : Option String)
    (o : RowOracle) (idx : Nat) (s : DispatchState)
    (hne : pacing delay ≠ ((1 : ℚ), (2 : ℚ))) :
    (processRow mode delay lbl o idx s).sleeps.countP (fun x => decide (x = pacing delay)) =
      s.sleeps.countP (fun x => decide (x = pacing delay)) +
        (if rowOkRow o (s.df.getD idx default) then 1 else 0) := by
  have hrow : rowOkRow o (s.df.getD idx default) =
      ((extract_email (pyStrip ((s.df.getD idx default).Email))).isSome && callIsOk o.call) := rfl
  cases hext : extract_email (pyStrip ((s.df.getD idx default).Email)) with
  | none =>
    have hok : rowOkRow o (s.df.getD idx default) = false := by
      rw [hrow, hext]
      rfl
    rw [processRow_skip mode delay lbl o idx s hext, hok]
    simp
  | some addr =>
    cases hc : o.call with
    | fail err =>
      have hok : rowOkRow o (s.df.getD idx default) = false := by
        rw [hrow, hext, hc]
        rfl
      rw [processRow_fail mode delay lbl o idx s addr err hext hc, hok]
      simp
    | ok msgId threadId =>
      have hok : rowOkRow o (s.df.getD idx default) = true := by
        rw [hrow, hext, hc]
        rfl
      by_cases hm : mode = Mode.draft
      · subst hm
        rw [processRow_draft_ok delay lbl o idx s msgId threadId addr hext hc, hok]
        simp
      · rw [processRow_send_ok mode delay lbl o idx s msgId threadId addr hm hext hc, hok]
        have hzero : (fetch_message_id_header o.fetchAttempts).2.countP
            (fun x => decide (x = pacing delay)) = 0 := by
          rw [List.countP_eq_zero]
          intro a ha
          have haeq := fetchGo_sleeps_all o.fetchAttempts 6 0 a ha
          subst haeq
          simp only [decide_eq_true_eq]
          exact fun h => hne h.symm
        dsimp only
        rw [List.countP_append, List.countP_append, hzero]
        simp

theorem dispatchGo_sleep_count (mode : Mode) (delay : ℚ) (lbl : Option String)
    (orc : Nat → RowOracle) (hne : pacing delay ≠ ((1 : ℚ), (2 : ℚ))) :
    ∀ (l : List Nat) (s : DispatchState),
      (dispatchGo mode delay lbl orc l s).sleeps.countP (fun x => decide (x = pacing delay)) +
          s.sent_count =
        s.sleeps.countP (fun x => decide (x = pacing delay)) +
          (dispatchGo mode delay lbl orc l s).sent_count := by
  intro l
  induction l with
  | nil => intro s; rfl
  | cons idx rest ih =>
    intro s
    simp only [dispatchGo]
    by_cases hbreak : mode ≠ Mode.draft ∧ BATCH_SIZE_DEFAULT ≤ s.batch_count
    · rw [if_pos hbreak]
    · rw [if_neg hbreak]
      have h1 := ih (processRow mode delay lbl (orc idx) idx s)
      have h2 := processRow_sleep_count mode delay lbl (orc idx) idx s hne
      have h3 := (processRow_batch_sent mode delay lbl (orc idx) idx s).2
      omega

/-- C5 (amended): the dispatcher performs a pacing sleep drawn from
`uniform(0.9 * delay, 1.1 * delay)` after every SUCCESSFULLY processed row
(sent or drafted) and only after those: rows that are skipped and rows
whose processing ends in `Error` are not followed by a pacing sleep (the
`time.sleep` call sits inside the `try` block before the counters, so an
exception skips it — see the counterexample). -/
theorem pacing_after_success (mode : Mode) (delay : ℚ) (lbl : Option String)
    (orc : Nat → RowOracle) (df : List Row)
    (hne : pacing delay ≠ ((1 : ℚ), (2 : ℚ))) :
    (runDispatch mode delay lbl orc df).sleeps.countP (fun x => decide (x = pacing delay)) =
      (runDispatch mode delay lbl orc df).sent_count := by
  have h := dispatchGo_sleep_count mode delay lbl orc hne (pending_indices df) (initState df)
  simpa [runDispatch, initState] using h

/-- Counterexample for C5 as stated: a single pending row whose remote
call fails is attempted and ends in `Error`, yet the run performs no
sleep at all. -/
theorem pacing_counterexample :
    (runDispatch Mode.new 20 none orcFail df1).errors.length = 1 ∧
      (runDispatch Mode.new 20 none orcFail df1).sleeps = [] := by
  constructor
  · decide
  · decide

/-- Witness for C5 (amended). -/
theorem pacing_after_success_witness :
    (runDispatch Mode.draft 20 none orcOk df1).sleeps.countP
        (fun x => decide (x = pacing 20)) =
      (runDispatch Mode.draft 20 none orcOk df1).sent_count :=
  pacing_after_success Mode.draft 20 none orcOk df1 (by
    simp only [pacing]
    intro h
    have h1 := congrArg Prod.fst h
    norm_num at h1)

/-! ## Message-id fetch and markSent (C6) -/

theorem fetchGo_all_fail (attempts : Nat → Option String) :
    ∀ (n k : Nat), (∀ j, j < n → attempts (k + j) = none) →
      fetchGo attempts k n = ("", List.replicate n ((1 : ℚ), (2 : ℚ))) := by
  intro n
  induction n with
  | zero => intro k _; rfl
  | succ n ih =>
    intro k h
    have h0 : attempts k = none := by simpa using h 0 (by omega)
    dsimp only [fetchGo]
    rw [h0, ih (k + 1) (fun j hj => by
      have h2 := h (j + 1) (by omega)
      rwa [show k + (j + 1) = k + 1 + j from by omega] at h2)]
    simp [List.replicate_succ]

theorem fetchGo_first_hit (attempts : Nat → Option String) :
    ∀ (n k m : Nat) (v : String), m < n → attempts (k + m) = some v →
      (∀ j, j < m → attempts (k + j) = none) →
      fetchGo attempts k n = (v, List.replicate m ((1 : ℚ), (2 : ℚ))) := by
  intro n
  induction n with
  | zero =>
    intro k m v hm _ _
    exact absurd hm (by omega)
  | succ n ih =>
    intro k m v hm hv hprev
    dsimp only [fetchGo]
    cases m with
    | zero =>
      have h0 : attempts k = some v := by simpa using hv
      rw [h0]
      rfl
    | succ m2 =>
      have h0 : attempts k = none := by simpa using hprev 0 (by omega)
      rw [h0, ih (k + 1) m2 v (by omega)
        (by
          have h2 := hv
          rwa [show k + (m2 + 1) = k + 1 + m2 from by omega] at h2)
        (fun j hj => by
          have h2 := hprev (j + 1) (by omega)
          rwa [show k + (j + 1) = k + 1 + j from by omega] at h2)]
      simp [List.replicate_succ]

/-- C6 (amended): `fetch_message_id_header` makes up to 6 attempts with a
`uniform(1, 2)` backoff sleep after each failed attempt and yields `""`
when the header is never resolved; but on a successful New-mode send the
row's `RfcMessageId` is `fetch_message_id_header(...) or msg_id`, so when
the fetch yields a falsy value the stored identifier FALLS BACK to the
provider-returned message id rather than being the empty string; the
provider thread id is stored and the row is marked `Sent`. -/
theorem mark_sent_amended :
    (∀ attempts : Nat → Option String, (∀ k, k < 6 → attempts k = none) →
      fetch_message_id_header attempts = ("", List.replicate 6 ((1 : ℚ), (2 : ℚ)))) ∧
    (∀ (attempts : Nat → Option String) (m : Nat) (v : String), m < 6 →
      attempts m = some v → (∀ j, j < m → attempts j = none) →
      fetch_message_id_header attempts = (v, List.replicate m ((1 : ℚ), (2 : ℚ)))) ∧
    (∀ b : String, pyOr "" b = b) ∧
    (∀ (delay : ℚ) (lbl : Option String) (o : RowOracle) (idx : Nat) (s : DispatchState)
      (msgId threadId addr : String), idx < s.df.length →
      extract_email (pyStrip ((s.df.getD idx default).Email)) = some addr →
      o.call = CallResult.ok msgId threadId →
      (processRow Mode.new delay lbl o idx s).df.getD idx default =
        { s.df.getD idx default with
            ThreadId := threadId,
            RfcMessageId := pyOr (fetch_message_id_header o.fetchAttempts).1 msgId,
            Status := "Sent" }) := by
  refine ⟨?_, ?_, ?_, ?_⟩
  · intro attempts h
    exact fetchGo_all_fail attempts 6 0 (fun j hj => by simpa using h j hj)
  · intro attempts m v hm hv hprev
    exact fetchGo_first_hit attempts 6 0 m v hm (by simpa using hv)
      (fun j hj => by simpa using hprev j hj)
  · intro b
    rfl
  · intro delay lbl o idx s msgId threadId addr hlen hext hc
    rw [processRow_send_ok Mode.new delay lbl o idx s msgId threadId addr (by decide) hext hc]
    dsimp only
    exact getD_set_self _ _ _ _ hlen

/-- Counterexample for C6 as stated: one valid pending row, a successful
New-mode send returning message id `"m1"`, and a fetch that never
resolves: the stored `RfcMessageId` is `"m1"`, not the empty string the
claim asserts. -/
theorem rfc_fallback_counterexample :
    ((runDispatch Mode.new 20 none orcOk df1).df.getD 0 default).RfcMessageId = "m1" ∧
      ("m1" : String) ≠ "" := by
  constructor
  · decide
  · decide

/-- Witness for C6 (amended). -/
theorem mark_sent_amended_witness :
    fetch_message_id_header (fun _ => none) = ("", List.replicate 6 ((1 : ℚ), (2 : ℚ))) ∧
    pyOr "" "m1" = "m1" := by
  constructor
  · exact mark_sent_amended.1 (fun _ => none) (fun k _ => rfl)
  · exact mark_sent_amended.2.2.1 "m1"

/-! ## Resume marker (C7) -/

/-- C7: the startup check yields the export path (and short-circuits to
the completed view) iff the marker file exists, it is readable, it
references a truthy path, and that artifact still exists on disk; an
unreadable marker or a missing artifact makes the check yield nothing and
the system proceeds as a fresh run. -/
theorem checkAndLoad_spec (fsExists : String → Bool) (parsed : Option DoneInfo) (p : String) :
    checkAndLoad fsExists parsed = some p ↔
      fsExists DONE_FILE = true ∧ (∃ info, parsed = some info ∧ info.file = some p) ∧
        p ≠ "" ∧ fsExists p = true := by
  unfold checkAndLoad
  by_cases h1 : fsExists DONE_FILE = true
  · rw [if_pos h1]
    cases parsed with
    | none => simp
    | some info =>
      cases hf : info.file with
      | none => simp [hf]
      | some q =>
        dsimp only
        rw [hf]
        dsimp only
        by_cases h2 : q ≠ "" ∧ fsExists q = true
        · rw [if_pos h2]
          constructor
          · intro he
            have he2 : some q = some p := he
            cases he2
            exact ⟨h1, ⟨info, rfl, hf⟩, h2.1, h2.2⟩
          · rintro ⟨-, ⟨info2, heq, hfile⟩, hp1, hp2⟩
            cases heq
            rw [hf] at hfile
            cases hfile
            rfl
        · rw [if_neg h2]
          constructor
          · intro he
            exact absurd he (by simp)
          · rintro ⟨-, ⟨info2, heq, hfile⟩, hp1, hp2⟩
            cases heq
            rw [hf] at hfile
            cases hfile
            exact absurd ⟨hp1, hp2⟩ h2
  · rw [if_neg h1]
    constructor
    · intro he
      exact absurd he (by simp)
    · rintro ⟨hh, -⟩
      exact absurd hh h1

/-! ## Cap truncation and the frame property (C9) -/

theorem dispatchGo_new_success (delay : ℚ) (lbl : Option String) (orc : Nat → RowOracle) :
    ∀ (l : List Nat) (s : DispatchState), l.Nodup →
      (∀ i ∈ l, i < s.df.length) →
      (∀ i ∈ l, rowOkRow (orc i) (s.df.getD i default) = true) →
      (∀ j ∈ l.take (BATCH_SIZE_DEFAULT - s.batch_count),
        ((dispatchGo Mode.new delay lbl orc l s).df.getD j default).Status = "Sent") ∧
      (∀ j ∈ l.drop (BATCH_SIZE_DEFAULT - s.batch_count),
        (dispatchGo Mode.new delay lbl orc l s).df.getD j default = s.df.getD j default) := by
  intro l
  induction l with
  | nil =>
    intro s _ _ _
    exact ⟨fun j hj => absurd hj (by simp), fun j _ => rfl⟩
  | cons idx rest ih =>
    intro s hnd hbound hok
    simp only [dispatchGo]
    by_cases hbreak : Mode.new ≠ Mode.draft ∧ BATCH_SIZE_DEFAULT ≤ s.batch_count
    · rw [if_pos hbreak]
      have hm0 : BATCH_SIZE_DEFAULT - s.batch_count = 0 := by omega
      rw [hm0]
      exact ⟨fun j hj => absurd hj (by simp), fun j _ => rfl⟩
    · rw [if_neg hbreak]
      have hlt : s.batch_count < BATCH_SIZE_DEFAULT := by
        rcases Nat.lt_or_ge s.batch_count BATCH_SIZE_DEFAULT with h2 | h2
        · exact h2
        · exact absurd ⟨by decide, h2⟩ hbreak
      have hidxlen : idx < s.df.length := hbound idx (by simp)
      have hokidx := hok idx (by simp)
      obtain ⟨addr, hext⟩ :
          ∃ addr, extract_email (pyStrip ((s.df.getD idx default).Email)) = some addr := by
        unfold rowOkRow at hokidx
        cases hext2 : extract_email (pyStrip ((s.df.getD idx default).Email)) with
        | none =>
          rw [hext2] at hokidx
          simp at hokidx
        | some a => exact ⟨a, rfl⟩
      obtain ⟨msgId, threadId, hc⟩ : ∃ m t, (orc idx).call = CallResult.ok m t := by
        unfold rowOkRow at hokidx
        cases hc2 : (orc idx).call with
        | fail e =>
          rw [hc2] at hokidx
          simp [callIsOk] at hokidx
        | ok m t => exact ⟨m, t, rfl⟩
      have hrow_idx : (processRow Mode.new delay lbl (orc idx) idx s).df.getD idx default =
          { s.df.getD idx default with
              ThreadId := threadId,
              RfcMessageId := pyOr (fetch_message_id_header (orc idx).fetchAttempts).1 msgId,
              Status := "Sent" } := by
        rw [processRow_send_ok Mode.new delay lbl (orc idx) idx s msgId threadId addr
          (by decide) hext hc]
        dsimp only
        exact getD_set_self _ _ _ _ hidxlen
      have hbc2 : (processRow Mode.new delay lbl (orc idx) idx s).batch_count =
          s.batch_count + 1 := by
        rw [(processRow_batch_sent Mode.new delay lbl (orc idx) idx s).1, hokidx]
        rfl
      have hlen2 : (processRow Mode.new delay lbl (orc idx) idx s).df.length = s.df.length :=
        processRow_df_length Mode.new delay lbl (orc idx) idx s
      have hidxnot : idx ∉ rest := (List.nodup_cons.mp hnd).1
      have hrow_ne : ∀ i ∈ rest,
          (processRow Mode.new delay lbl (orc idx) idx s).df.getD i default =
            s.df.getD i default := by
        intro i hi
        exact processRow_getD_ne Mode.new delay lbl (orc idx) idx s i default
          (fun he => hidxnot (he ▸ hi))
      obtain ⟨ih1, ih2⟩ := ih (processRow Mode.new delay lbl (orc idx) idx s)
        (List.nodup_cons.mp hnd).2
        (fun i hi => by
          rw [hlen2]
          exact hbound i (by simp [hi]))
        (fun i hi => by
          rw [hrow_ne i hi]
          exact hok i (by simp [hi]))
      obtain ⟨m2, hm2⟩ : ∃ m2, BATCH_SIZE_DEFAULT - s.batch_count = m2 + 1 :=
        ⟨BATCH_SIZE_DEFAULT - s.batch_count - 1, by omega⟩
      have hm2b : BATCH_SIZE_DEFAULT -
          (processRow Mode.new delay lbl (orc idx) idx s).batch_count = m2 := by
        omega
      rw [hm2b] at ih1 ih2
      rw [hm2]
      constructor
      · intro j hj
        rw [List.take_succ_cons] at hj
        rcases List.mem_cons.mp hj with rfl | hj2
        · rw [dispatchGo_frame Mode.new delay lbl orc rest _ j default hidxnot, hrow_idx]
        · exact ih1 j hj2
      · intro j hj
        rw [List.drop_succ_cons] at hj
        have hjrest : j ∈ rest := List.drop_subset _ _ hj
        rw [ih2 j hj, hrow_ne j hjrest]

/-- C9: with every pending row valid and every remote call succeeding in
New mode, the dispatch marks exactly the first `BATCH_SIZE_DEFAULT`
pending rows `Sent`; every other row — the untried remainder beyond the
cap and the rows that were not pending — keeps all of its fields
unchanged, and the next invocation's pending set is exactly the untried
remainder, in order. -/
theorem cap_truncation_frame (delay : ℚ) (lbl : Option String)
    (orc : Nat → RowOracle) (df : List Row)
    (hgood : ∀ i ∈ pending_indices df, rowOk orc df i = true) :
    (∀ j, j ∉ pending_indices df →
      (runDispatch Mode.new delay lbl orc df).df.getD j default = df.getD j default) ∧
    (∀ j ∈ (pending_indices df).take BATCH_SIZE_DEFAULT,
      ((runDispatch Mode.new delay lbl orc df).df.getD j default).Status = "Sent") ∧
    (∀ j ∈ (pending_indices df).drop BATCH_SIZE_DEFAULT,
      (runDispatch Mode.new delay lbl orc df).df.getD j default = df.getD j default) ∧
    pending_indices (runDispatch Mode.new delay lbl orc df).df =
      (pending_indices df).drop BATCH_SIZE_DEFAULT := by
  have hbounds : ∀ i ∈ pending_indices df, i < (initState df).df.length :=
    fun i hi => ((mem_pending_indices df i).mp hi).1
  have hok : ∀ i ∈ pending_indices df,
      rowOkRow (orc i) ((initState df).df.getD i default) = true :=
    fun i hi => hgood i hi
  obtain ⟨hsent, hframe⟩ := dispatchGo_new_success delay lbl orc (pending_indices df)
    (initState df) (pending_indices_nodup df) hbounds hok
  have hB : BATCH_SIZE_DEFAULT - (initState df).batch_count = BATCH_SIZE_DEFAULT := rfl
  rw [hB] at hsent hframe
  refine ⟨?_, hsent, hframe, ?_⟩
  · intro j hj
    exact dispatchGo_frame Mode.new delay lbl orc _ _ j default hj
  · have hlen : (runDispatch Mode.new delay lbl orc df).df.length = df.length :=
      dispatchGo_df_length Mode.new delay lbl orc _ _
    have hmem : ∀ j, j ∈ pending_indices (runDispatch Mode.new delay lbl orc df).df ↔
        j ∈ (pending_indices df).drop BATCH_SIZE_DEFAULT := by
      intro j
      constructor
      · intro hj
        obtain ⟨hjlen, hjstat⟩ := (mem_pending_indices _ j).mp hj
        by_cases hjp : j ∈ pending_indices df
        · have hjp2 : j ∈ (pending_indices df).take BATCH_SIZE_DEFAULT ++
              (pending_indices df).drop BATCH_SIZE_DEFAULT := by
            rw [List.take_append_drop]
            exact hjp
          rcases List.mem_append.mp hjp2 with h | h
          · exact absurd (hsent j h) hjstat
          · exact h
        · exfalso
          have hunch : (runDispatch Mode.new delay lbl orc df).df.getD j default =
              df.getD j default :=
            dispatchGo_frame Mode.new delay lbl orc (pending_indices df) (initState df)
              j default hjp
          rw [hlen] at hjlen
          have hstat : (df.getD j default).Status = "Sent" := by
            by_contra hne2
            exact hjp ((mem_pending_indices df j).mpr ⟨hjlen, hne2⟩)
          rw [hunch] at hjstat
          exact hjstat hstat
      · intro hj
        have hjp : j ∈ pending_indices df := List.drop_subset _ _ hj
        obtain ⟨hjlen, hjstat⟩ := (mem_pending_indices df j).mp hjp
        have hunch : (runDispatch Mode.new delay lbl orc df).df.getD j default =
            df.getD j default := hframe j hj
        refine (mem_pending_indices _ j).mpr ⟨?_, ?_⟩
        · rw [hlen]
          exact hjlen
        · rw [hunch]
          exact hjstat
    have hnd1 := pending_indices_nodup (runDispatch Mode.new delay lbl orc df).df
    have hnd2 : ((pending_indices df).drop BATCH_SIZE_DEFAULT).Nodup :=
      (pending_indices_nodup df).sublist (List.drop_sublist _ _)
    have hs1 : List.Sorted (· ≤ ·)
        (pending_indices (runDispatch Mode.new delay lbl orc df).df) :=
      (pending_indices_sorted _).le_of_lt
    have hs2lt : List.Sorted (· < ·) ((pending_indices df).drop BATCH_SIZE_DEFAULT) :=
      (pending_indices_sorted df).sublist (List.drop_sublist _ _)
    have hs2 : List.Sorted (· ≤ ·) ((pending_indices df).drop BATCH_SIZE_DEFAULT) :=
      hs2lt.le_of_lt
    exact List.eq_of_perm_of_sorted ((List.perm_ext_iff_of_nodup hnd1 hnd2).mpr hmem) hs1 hs2

/-- Witness for C9: the spec's 60-row scenario — 50 rows are sent, the 10
untried rows remain exactly the pending set of the next invocation. -/
theorem cap_truncation_frame_witness :
    pending_indices ((runDispatch Mode.new 20 none orcOk df60).df) =
      (pending_indices df60).drop BATCH_SIZE_DEFAULT ∧
    ((pending_indices df60).take BATCH_SIZE_DEFAULT).length = 50 ∧
    ((pending_indices df60).drop BATCH_SIZE_DEFAULT).length = 10 := by
  refine ⟨(cap_truncation_frame 20 none orcOk df60 (by decide)).2.2.2, by decide, by decide⟩

/-! ## Draft-mode sent counter (C10) -/

/-- C10: in Save-as-Draft mode every successfully created draft
increments `sent_count`, the very counter the Run Summary reports as
`sent`; so the summary's sent count equals the number of drafts created
this run, while those rows carry status `"Draft"`, not `"Sent"`. -/
theorem draft_sent_count_spec (delay : ℚ) (lbl : Option String)
    (orc : Nat → RowOracle) (df : List Row) :
    (summary (runDispatch Mode.draft delay lbl orc df)).sent =
      (pending_indices df).countP (fun i => rowOk orc df i) ∧
    (∀ idx ∈ pending_indices df, rowOk orc df idx = true →
      ((runDispatch Mode.draft delay lbl orc df).df.getD idx default).Status = "Draft") := by
  have hbounds : ∀ i ∈ pending_indices df, i < (initState df).df.length :=
    fun i hi => ((mem_pending_indices df i).mp hi).1
  obtain ⟨hrow, hcount⟩ := dispatchGo_draft delay lbl orc (pending_indices df) (initState df)
    (pending_indices_nodup df) hbounds
  constructor
  · show (runDispatch Mode.draft delay lbl orc df).sent_count = _
    simpa [runDispatch, initState, rowOk] using hcount
  · intro idx hidx hok2
    unfold runDispatch
    rw [hrow idx hidx]
    exact statusFor_of_ok _ _ hok2

/-- Witness for C10. -/
theorem draft_sent_count_witness :
    (summary (runDispatch Mode.draft 20 none orcOk df1)).sent =
      (pending_indices df1).countP (fun i => rowOk orcOk df1 i) ∧
    ((runDispatch Mode.draft 20 none orcOk df1).df.getD 0 default).Status = "Draft" := by
  refine ⟨(draft_sent_count_spec 20 none orcOk df1).1, ?_⟩
  exact (draft_sent_count_spec 20 none orcOk df1).2 0 (by decide) (by decide)

end MailMerge
